import Mathlib

/-!
Verification of the httpstream repository's incremental JSON decoder
(`jsonstream` package: `tokeniser.py`, `__init__.py`, `util.py`) and of its
URI engine (`httpstream/uri.py`).

The embedding below is a direct shallow translation of the Python sources:

* The tokeniser's `StringIO` buffer with an independent read cursor is
  modelled by the *unread suffix* of the buffer (a `List Char`): writing a
  chunk appends to the suffix, reading consumes from its front, and the
  `seek`-based rewind performed on `AwaitingData` is modelled by returning
  the suffix as it stood when the token attempt began.
* Python `str` values decoded from JSON strings are modelled as lists of
  code points (`List Nat`), since `unichr` may produce lone surrogates that
  are not Lean `Char`s.  Raw source slices contain only buffer characters
  and are kept as `List Char`.
* Python `float(src)` is modelled as a constructor carrying the numeric
  source text; the conversion to IEEE double is a function of that text, so
  equality of sources implies equality of the Python floats.
-/

/-- Python values that flow through the `jsonstream` decoder: `None`,
booleans, ints, floats (carrying their source text) and strings (as code
point sequences). -/
inductive PyVal where
  | none : PyVal
  | bool (b : Bool) : PyVal
  | int (n : Int) : PyVal
  | float (src : String) : PyVal
  | str (codes : List Nat) : PyVal
deriving BEq, DecidableEq, Repr

/-- Errors that can escape `Tokeniser.read` / `JSONStream.__iter__`:
`UnexpectedCharacter` (carrying the offending source text) and the
`ValueError` raised by `int(ch, 16)` on a malformed `\uXXXX` escape. -/
inductive TokErr where
  | unexpectedCharacter (s : String) : TokErr
  | valueError : TokErr
deriving BEq, DecidableEq, Repr

/-- Result of one read attempt on the buffer suffix: success (with the
remaining suffix), `AwaitingData` (cursor rewound; the payload is the suffix
the cursor was rewound to), `EndOfStream`, or an error. -/
inductive ReadRes (α : Type) where
  | ok (a : α) (rest : List Char) : ReadRes α
  | await (rest : List Char) : ReadRes α
  | eos : ReadRes α
  | err (e : TokErr) : ReadRes α
deriving BEq, DecidableEq, Repr

/-- Characters of Python `string.whitespace`. -/
def isWs (c : Char) : Bool :=
  c = ' ' || c = '\t' || c = '\n' || c = '\r' || c = '\x0b' || c = '\x0c'

/-- Model of `Tokeniser._skip_whitespace`: drop leading whitespace. -/
def dropWs (rem : List Char) : List Char := rem.dropWhile isWs

/-- Model of the loop body of `Tokeniser._read_literal`: match the expected
characters one by one; a mismatch raises `UnexpectedCharacter`, exhausting
the buffer raises `AwaitingData` (when writable) or `EndOfStream`. -/
def readLiteralAux : List Char → List Char → Bool → ReadRes Unit
  | [], rest, _ => .ok () rest
  | _ :: _, [], w => if w then .await [] else .eos
  | l :: ls, c :: cs, w =>
    if c = l then readLiteralAux ls cs w
    else .err (.unexpectedCharacter (String.mk [c]))

/-- Value of the single-character escape sequences in
`Tokeniser.ESCAPE_SEQUENCES`, as a code point. -/
def escChar : Char → Option Nat
  | '"' => some 34
  | '\\' => some 92
  | '/' => some 47
  | 'b' => some 8
  | 'f' => some 12
  | 'n' => some 10
  | 'r' => some 13
  | 't' => some 9
  | _ => Option.none

/-- Model of Python `int(ch, 16)` on a single character (hex digit value;
`Option.none` models the `ValueError` on a non-hex character). -/
def hexDigitVal (c : Char) : Option Nat :=
  let n := c.toNat
  if 48 ≤ n ∧ n ≤ 57 then some (n - 48)
  else if 97 ≤ n ∧ n ≤ 102 then some (n - 97 + 10)
  else if 65 ≤ n ∧ n ≤ 70 then some (n - 65 + 10)
  else Option.none

/-- Model of the body of `Tokeniser._read_string` after the opening quote:
accumulate raw source characters (`src`) and decoded code points (`val`),
handling the backslash escapes and `\uXXXX` exactly as the Python loop
does (each of the four hex digits is read and converted in turn, so a
non-hex digit raises `ValueError` even if later data is missing). -/
def readStringAux : List Char → List Char → List Nat → Bool → ReadRes (List Char × PyVal)
  | [], _, _, w => if w then .await [] else .eos
  | '"' :: rest, src, val, _ => .ok (src ++ ['"'], .str val) rest
  | ['\\'], _, _, w => if w then .await [] else .eos
  | ['\\', 'u'], _, _, w => if w then .await [] else .eos
  | ['\\', 'u', a], _, _, w =>
    if (hexDigitVal a).isNone then .err .valueError
    else if w then .await [] else .eos
  | ['\\', 'u', a, b], _, _, w =>
    if (hexDigitVal a).isNone then .err .valueError
    else if (hexDigitVal b).isNone then .err .valueError
    else if w then .await [] else .eos
  | ['\\', 'u', a, b, c], _, _, w =>
    if (hexDigitVal a).isNone then .err .valueError
    else if (hexDigitVal b).isNone then .err .valueError
    else if (hexDigitVal c).isNone then .err .valueError
    else if w then .await [] else .eos
  | '\\' :: 'u' :: a :: b :: c :: d :: rest6, src, val, w =>
    match hexDigitVal a, hexDigitVal b, hexDigitVal c, hexDigitVal d with
    | some va, some vb, some vc, some vd =>
      readStringAux rest6 (src ++ ['\\', 'u', a, b, c, d])
        (val ++ [16 * (16 * (16 * va + vb) + vc) + vd]) w
    | _, _, _, _ => .err .valueError
  | '\\' :: e :: rest2, src, val, w =>
    match escChar e with
    | some n => readStringAux rest2 (src ++ ['\\', e]) (val ++ [n]) w
    | Option.none => .err (.unexpectedCharacter (String.mk [e]))
  | c :: rest, src, val, w => readStringAux rest (src ++ [c]) (val ++ [c.toNat]) w

/-- Model of the `while True: try: src.append(self._read_digit()) ...` loops
of `Tokeniser._read_number`: consume a run of digits; running out of data
while writable is `AwaitingData`, otherwise the loop just stops
(`UnexpectedCharacter` / `EndOfStream` are caught by the Python loop). -/
def digitRun : List Char → Bool → ReadRes (List Char)
  | [], w => if w then .await [] else .ok [] []
  | c :: cs, w =>
    if c.isDigit then
      match digitRun cs w with
      | .ok ds rest => .ok (c :: ds) rest
      | other => other
    else .ok [] (c :: cs)

/-- Natural number denoted by a list of decimal digits. -/
def digitsToNat (ds : List Char) : Nat :=
  ds.foldl (fun acc c => 10 * acc + (c.toNat - '0'.toNat)) 0

/-- Model of Python `int(src)` for an optionally signed digit string. -/
def intOfSrc (sgn : List Char) (ds : List Char) : Int :=
  if sgn = [] then (digitsToNat ds : Int) else -(digitsToNat ds : Int)

/-- Tail of `Tokeniser._read_number` after the integer part: peek for a
`.`; if present, consume it and a digit run and produce a float, else
produce an int.  Mirrors the Python control flow, including the stale-`ch`
behaviour after `EndOfStream` from the peek (the stale value is always a
digit, so the fractional branch is skipped). -/
def numAfterInt (sgn : List Char) (d : Char) (ds : List Char) (rest3 : List Char)
    (w : Bool) : ReadRes (List Char × PyVal) :=
  match rest3 with
  | [] =>
    if w then .await []
    else .ok (sgn ++ d :: ds, .int (intOfSrc sgn (d :: ds))) rest3
  | p :: rest4 =>
    if p = '.' then
      match digitRun rest4 w with
      | .await _ => .await []
      | .eos => .eos
      | .err e => .err e
      | .ok ds2 rest5 =>
        .ok (sgn ++ d :: ds ++ '.' :: ds2,
             .float (String.mk (sgn ++ d :: ds ++ '.' :: ds2))) rest5
    else .ok (sgn ++ d :: ds, .int (intOfSrc sgn (d :: ds))) rest3

/-- Body of `Tokeniser._read_number` after the optional sign: first digit
(a non-digit raising `UnexpectedCharacter`, missing data `AwaitingData` or
`EndOfStream`), then the integer-part digit run (skipped after a lone
leading `0`), then `numAfterInt`. -/
def numAfterSign (sgn : List Char) (rest1 : List Char) (w : Bool) :
    ReadRes (List Char × PyVal) :=
  match rest1 with
  | [] => if w then .await [] else .eos
  | d :: rest2 =>
    if ¬ d.isDigit then .err (.unexpectedCharacter (String.mk [d])) else
    match (if d = '0' then ReadRes.ok [] rest2 else digitRun rest2 w) with
    | .await _ => .await []
    | .eos => .eos
    | .err e => .err e
    | .ok ds rest3 => numAfterInt sgn d ds rest3 w

/-- Model of `Tokeniser._read_number`: optional sign, then `numAfterSign`. -/
def readNumberAux (rem : List Char) (w : Bool) : ReadRes (List Char × PyVal) :=
  match rem with
  | [] => if w then .await [] else .eos
  | c0 :: rest0 =>
    if c0 = '-' then numAfterSign [c0] rest0 w else numAfterSign [] rem w

/-- Model of `Tokeniser.read`: skip whitespace, classify the next character
and dispatch.  `AwaitingData` from a sub-reader rewinds the cursor to the
start of the token attempt (just after the skipped whitespace). -/
def readTok (rem : List Char) (w : Bool) : ReadRes (List Char × PyVal) :=
  let r := dropWs rem
  match r with
  | [] => if w then .await r else .eos
  | c :: rest =>
    if [',', ':', '[', ']', '{', '}'].contains c then .ok ([c], .none) rest
    else if c = 'n' then
      match readLiteralAux ['n', 'u', 'l', 'l'] r w with
      | .ok _ rest2 => .ok (['n', 'u', 'l', 'l'], .none) rest2
      | .await _ => .await r
      | .eos => .eos
      | .err e => .err e
    else if c = 't' then
      match readLiteralAux ['t', 'r', 'u', 'e'] r w with
      | .ok _ rest2 => .ok (['t', 'r', 'u', 'e'], .bool true) rest2
      | .await _ => .await r
      | .eos => .eos
      | .err e => .err e
    else if c = 'f' then
      match readLiteralAux ['f', 'a', 'l', 's', 'e'] r w with
      | .ok _ rest2 => .ok (['f', 'a', 'l', 's', 'e'], .bool false) rest2
      | .await _ => .await r
      | .eos => .eos
      | .err e => .err e
    else if c = '"' then
      match readStringAux rest ['"'] [] w with
      | .ok sv rest2 => .ok sv rest2
      | .await _ => .await r
      | .eos => .eos
      | .err e => .err e
    else if c = '-' ∨ c.isDigit then
      match readNumberAux r w with
      | .ok sv rest2 => .ok sv rest2
      | .await _ => .await r
      | .eos => .eos
      | .err e => .err e
    else .err (.unexpectedCharacter (String.mk [c]))

/-! ### JSONStream: the path-tracking assembler (`jsonstream/__init__.py`) -/

/-- Token-kind bits used for expectation management (source constants). -/
def VALUE : Nat := 0x01

/-- Opening-bracket expectation bit. -/
def OPENING_BRACKET : Nat := 0x02

/-- Closing-bracket expectation bit. -/
def CLOSING_BRACKET : Nat := 0x04

/-- Opening-brace expectation bit. -/
def OPENING_BRACE : Nat := 0x08

/-- Closing-brace expectation bit. -/
def CLOSING_BRACE : Nat := 0x10

/-- Comma expectation bit. -/
def COMMA : Nat := 0x20

/-- Colon expectation bit. -/
def COLON : Nat := 0x40

/-- Model of Python `isinstance(x, int)` on the values stored in
`JSONStream.path`; note that Python `bool` is a subclass of `int`. -/
def isPyInt : PyVal → Bool
  | .int _ => true
  | .bool _ => true
  | _ => false

/-- Integer value of a Python int-like (`bool` counts as 0/1). -/
def pyToInt : PyVal → Int
  | .int n => n
  | .bool b => if b then 1 else 0
  | _ => 0

/-- Assembler state: the mutable `path` stack and the `expectation`
bitmask of `JSONStream`. -/
structure SState where
  path : List PyVal
  expect : Nat
deriving BEq, DecidableEq, Repr

/-- Initial assembler state: `VALUE | OPENING_BRACKET | OPENING_BRACE`. -/
def initSState : SState := ⟨[], VALUE ||| OPENING_BRACKET ||| OPENING_BRACE⟩

/-- An emitted event: a snapshot of the path paired with the value. -/
abbrev JEvent := List PyVal × PyVal

/-- Model of `JSONStream._assert_expecting`. -/
def expecting (st : SState) (bit : Nat) : Bool := st.expect &&& bit ≠ 0

/-- Model of `JSONStream._in_array`: path non-empty and its top an int. -/
def inArray (path : List PyVal) : Bool :=
  match path.getLast? with
  | some v => isPyInt v
  | Option.none => false

/-- Model of `JSONStream._in_object`: path non-empty, top not an int. -/
def inObject (path : List PyVal) : Bool :=
  match path.getLast? with
  | some v => ¬ isPyInt v
  | Option.none => false

/-- Replace the top of the path (`self.path[-1] = x`). -/
def setTop (path : List PyVal) (x : PyVal) : List PyVal :=
  path.dropLast ++ [x]

/-- Model of `JSONStream._next_value`. -/
def nextValue (st : SState) (src : List Char) (v : PyVal) :
    Except TokErr (SState × Option JEvent) :=
  if ¬ expecting st VALUE then .error (.unexpectedCharacter (String.mk src))
  else if inArray st.path then
    .ok (⟨setTop st.path (.int (pyToInt (st.path.getLast?.getD .none) + 1)),
          COMMA ||| CLOSING_BRACKET⟩, some (st.path, v))
  else if inObject st.path then
    if st.path.getLast?.getD .none ≠ .none then
      .ok (⟨setTop st.path .none, COMMA ||| CLOSING_BRACE⟩, some (st.path, v))
    else
      .ok (⟨setTop st.path v, COLON⟩, Option.none)
  else
    .ok (⟨st.path, st.expect⟩, some (st.path, v))

/-- Common tail of `_close_array` / `_close_object` after popping. -/
def afterPop (path : List PyVal) : SState :=
  if inArray path then
    ⟨setTop path (.int (pyToInt (path.getLast?.getD .none) + 1)),
     COMMA ||| CLOSING_BRACKET⟩
  else if inObject path then
    ⟨setTop path .none, COMMA ||| CLOSING_BRACE⟩
  else
    ⟨path, VALUE ||| OPENING_BRACKET ||| OPENING_BRACE⟩

/-- Model of the per-token dispatch in `JSONStream.__iter__` together with
the handler methods `_handle_comma`, `_handle_colon`, `_open_array`,
`_close_array`, `_open_object`, `_close_object` and `_next_value`. -/
def handleTok (st : SState) (src : List Char) (v : PyVal) :
    Except TokErr (SState × Option JEvent) :=
  if src = [','] then
    if expecting st COMMA then
      .ok (⟨st.path, VALUE ||| OPENING_BRACKET ||| OPENING_BRACE⟩, Option.none)
    else .error (.unexpectedCharacter (String.mk src))
  else if src = [':'] then
    if expecting st COLON then
      .ok (⟨st.path, VALUE ||| OPENING_BRACKET ||| OPENING_BRACE⟩, Option.none)
    else .error (.unexpectedCharacter (String.mk src))
  else if src = ['['] then
    if expecting st OPENING_BRACKET then
      .ok (⟨st.path ++ [.int 0],
            VALUE ||| OPENING_BRACKET ||| CLOSING_BRACKET ||| OPENING_BRACE⟩,
           Option.none)
    else .error (.unexpectedCharacter (String.mk src))
  else if src = [']'] then
    if expecting st CLOSING_BRACKET then
      .ok (afterPop st.path.dropLast, Option.none)
    else .error (.unexpectedCharacter (String.mk src))
  else if src = ['{'] then
    if expecting st OPENING_BRACE then
      .ok (⟨st.path ++ [.none], VALUE ||| CLOSING_BRACE⟩, Option.none)
    else .error (.unexpectedCharacter (String.mk src))
  else if src = ['}'] then
    if expecting st CLOSING_BRACE then
      .ok (afterPop st.path.dropLast, Option.none)
    else .error (.unexpectedCharacter (String.mk src))
  else nextValue st src v

/-- Outcome of draining the tokeniser from one buffer state: suspension on
`AwaitingData` (carrying the rewound suffix and assembler state),
termination on `EndOfStream`, an error, or fuel exhaustion (which
`drain_enough` below shows cannot happen with adequate fuel). -/
inductive DrainRes where
  | await (rem : List Char) (st : SState) (evs : List JEvent) : DrainRes
  | eos (evs : List JEvent) : DrainRes
  | fail (e : TokErr) (evs : List JEvent) : DrainRes
  | stuck : DrainRes
deriving BEq, DecidableEq, Repr

/-- Model of the inner `while True` loop of `JSONStream.__iter__`: read and
handle tokens until `AwaitingData` (suspend), `EndOfStream`, or an error,
collecting the yielded events.  The fuel argument only serves termination;
each successful read consumes at least one character. -/
def drain : Nat → List Char → Bool → SState → DrainRes
  | 0, _, _, _ => .stuck
  | fuel + 1, rem, w, st =>
    match readTok rem w with
    | .await r1 => .await r1 st []
    | .eos => .eos []
    | .err e => .fail e []
    | .ok (src, v) rest =>
      match handleTok st src v with
      | .error e => .fail e []
      | .ok (st2, ev) =>
        match drain fuel rest w st2 with
        | .await r1 s evs => .await r1 s (ev.toList ++ evs)
        | .eos evs => .eos (ev.toList ++ evs)
        | .fail e evs => .fail e (ev.toList ++ evs)
        | .stuck => .stuck

/-- Model of the outer loop of `JSONStream.__iter__`: write the next chunk
and drain; on `StopIteration` mark the stream ended and drain once more
with `writable = False` until `EndOfStream` (or an error) terminates the
iteration.  Returns the yielded events and the terminal error, if any
(`EndOfStream` terminates the generator silently). -/
def runAux : List String → List Char → SState → List JEvent × Option TokErr
  | [], rem, st =>
    match drain (rem.length + 1) rem false st with
    | .eos evs => (evs, Option.none)
    | .fail e evs => (evs, some e)
    | .await _ _ evs => (evs, Option.none)
    | .stuck => ([], Option.none)
  | chunk :: rest, rem, st =>
    match drain ((rem ++ chunk.toList).length + 1) (rem ++ chunk.toList) true st with
    | .await r1 st1 evs =>
      let t := runAux rest r1 st1
      (evs ++ t.1, t.2)
    | .fail e evs => (evs, some e)
    | .eos evs => (evs, Option.none)
    | .stuck => ([], Option.none)

/-- Model of `list(JSONStream(iter(chunks)))` together with the terminal
error, if the iteration raised one. -/
def jsonStream (chunks : List String) : List JEvent × Option TokErr :=
  runAux chunks [] initSState

/-! ### Value reassembly (`jsonstream/util.py`) -/

/-- A Python object graph as built by `merged`: a scalar, a list, or a
dict (an insertion-ordered association list, as Python dicts are). -/
inductive PyObj where
  | val (v : PyVal) : PyObj
  | list (xs : List PyObj) : PyObj
  | dict (kvs : List (PyVal × PyObj)) : PyObj
deriving BEq, Repr

/-- Look up a key in a Python dict. -/
def dictGet (kvs : List (PyVal × PyObj)) (k : PyVal) : Option PyObj :=
  match kvs with
  | [] => Option.none
  | (k0, v0) :: rest => if k0 = k then some v0 else dictGet rest k

/-- Set a key in a Python dict: replace the value at the first matching
key (keeping its position), else append. -/
def dictSet (kvs : List (PyVal × PyObj)) (k : PyVal) (v : PyObj) :
    List (PyVal × PyObj) :=
  match kvs with
  | [] => [(k, v)]
  | (k0, v0) :: rest => if k0 = k then (k0, v) :: rest else (k0, v0) :: dictSet rest k v

/-- Model of `jsonstream.util.merged`: merge `value` into `obj` at the
position described by `key`; int-like segments (including Python bools)
index lists padded with `None`, other segments key dicts.  The assembler
only produces non-negative indices, so `Int.toNat` is exact here. -/
def merged (obj : PyObj) (key : List PyVal) (value : PyVal) : PyObj :=
  match key with
  | [] => .val value
  | k :: ks =>
    if isPyInt k then
      let n := (pyToInt k).toNat
      let base := match obj with | .list xs => xs | _ => []
      let padded := base ++ List.replicate (n + 1 - base.length) (PyObj.val .none)
      .list (padded.set n (merged (padded.getD n (.val .none)) ks value))
    else
      let base := match obj with | .dict kvs => kvs | _ => []
      .dict (dictSet base k (merged ((dictGet base k).getD (.val .none)) ks value))

/-- Model of `jsonstream.util.assembled` (with the default key offset):
fold `merged` over the events, starting from Python `None`. -/
def assembled (evs : List JEvent) : PyObj :=
  evs.foldl (fun o kv => merged o kv.1 kv.2) (.val .none)

/-! ### Basic lemmas about whitespace skipping and `readTok` -/

/-- Code points of a Lean string, the shape `PyVal.str` stores. -/
def strCodes (s : String) : List Nat := s.toList.map Char.toNat

theorem dropWs_app (a b : List Char) :
    dropWs (a ++ b) = if dropWs a = [] then dropWs b else dropWs a ++ b := by
  induction a with
  | nil => simp [dropWs]
  | cons c a2 ih =>
    by_cases h : isWs c
    · simpa [dropWs, List.dropWhile_cons, h] using ih
    · simp [dropWs, List.dropWhile_cons, h]

theorem dropWs_head_false {a : List Char} {c : Char} {t : List Char}
    (h : dropWs a = c :: t) : isWs c = false := by
  induction a with
  | nil => simp [dropWs] at h
  | cons x a2 ih =>
    by_cases hx : isWs x
    · exact ih (by simpa [dropWs, List.dropWhile_cons, hx] using h)
    · simp [dropWs, List.dropWhile_cons, hx] at h
      simp [← h.1, hx]

theorem dropWs_idem (a : List Char) : dropWs (dropWs a) = dropWs a := by
  cases h : dropWs a with
  | nil => simp [dropWs]
  | cons c t =>
    have := dropWs_head_false h
    simp [dropWs, List.dropWhile_cons, this]

theorem readTok_congr {a b : List Char} (h : dropWs a = dropWs b) (w : Bool) :
    readTok a w = readTok b w := by
  unfold readTok
  rw [h]

theorem readTok_dropWs_app (rem ext : List Char) (w : Bool) :
    readTok (dropWs rem ++ ext) w = readTok (rem ++ ext) w := by
  refine readTok_congr ?_ w
  rw [dropWs_app, dropWs_app rem ext, dropWs_idem]

theorem readTok_await_payload {rem r1 : List Char} {w : Bool}
    (h : readTok rem w = .await r1) : r1 = dropWs rem := by
  unfold readTok at h
  cases hd : dropWs rem with
  | nil =>
    cases w <;> simp_all
  | cons c rest =>
    rw [hd] at h
    dsimp only at h
    repeat' split at h
    all_goals first
      | (cases h; rfl)
      | cases h

/-! ### Buffer-extension stability of the tokeniser

Writing more data to the buffer never changes the outcome of a read that
already succeeded or failed while the stream was writable, and cannot turn
anything into `EndOfStream`; an `AwaitingData` read leaves no trace beyond
the whitespace skip.  These lemmas make chunk-boundary invariance possible. -/

/-- Holds when `resExt`, the result of the same read on the buffer extended
by `ext`, agrees with `res`: success and error results are unchanged (the
extension just rides along in the remaining suffix), `AwaitingData` imposes
nothing, and `EndOfStream` cannot occur. -/
def extStable {α : Type} (res resExt : ReadRes α) (ext : List Char) : Prop :=
  match res with
  | .ok a rest => resExt = .ok a (rest ++ ext)
  | .err e => resExt = .err e
  | .await _ => True
  | .eos => False

theorem readLiteralAux_ext :
    ∀ (lit rem ext : List Char),
      extStable (readLiteralAux lit rem true) (readLiteralAux lit (rem ++ ext) true) ext
  | [], rem, ext => by simp [readLiteralAux, extStable]
  | _ :: _, [], ext => by simp [readLiteralAux, extStable]
  | l :: ls, c :: cs, ext => by
    by_cases h : c = l
    · simpa [readLiteralAux, h] using readLiteralAux_ext ls cs ext
    · simp [readLiteralAux, h, extStable]

theorem readString_hexA_err (a : Char) (rest src : List Char) (val : List Nat) (w : Bool)
    (ha : (hexDigitVal a).isNone = true) :
    readStringAux ('\\' :: 'u' :: a :: rest) src val w = .err .valueError := by
  rw [Option.isNone_iff_eq_none] at ha
  rcases rest with _ | ⟨b, _ | ⟨c, _ | ⟨d, rest6⟩⟩⟩ <;>
    simp [readStringAux, ha, Option.isNone_iff_eq_none]

theorem readString_hexB_err (a b : Char) (rest src : List Char) (val : List Nat) (w : Bool)
    (ha : ¬ (hexDigitVal a).isNone = true) (hb : (hexDigitVal b).isNone = true) :
    readStringAux ('\\' :: 'u' :: a :: b :: rest) src val w = .err .valueError := by
  rw [Option.isNone_iff_eq_none] at hb
  rw [Option.isNone_iff_eq_none] at ha
  obtain ⟨va, hva⟩ := Option.ne_none_iff_exists.mp ha
  rcases rest with _ | ⟨c, _ | ⟨d, rest6⟩⟩ <;>
    simp [readStringAux, ← hva, hb, Option.isNone_iff_eq_none]

theorem readString_hexC_err (a b c : Char) (rest src : List Char) (val : List Nat) (w : Bool)
    (ha : ¬ (hexDigitVal a).isNone = true) (hb : ¬ (hexDigitVal b).isNone = true)
    (hc : (hexDigitVal c).isNone = true) :
    readStringAux ('\\' :: 'u' :: a :: b :: c :: rest) src val w = .err .valueError := by
  rw [Option.isNone_iff_eq_none] at hc
  rw [Option.isNone_iff_eq_none] at ha
  rw [Option.isNone_iff_eq_none] at hb
  obtain ⟨va, hva⟩ := Option.ne_none_iff_exists.mp ha
  obtain ⟨vb, hvb⟩ := Option.ne_none_iff_exists.mp hb
  rcases rest with _ | ⟨d, rest6⟩ <;>
    simp [readStringAux, ← hva, ← hvb, hc, Option.isNone_iff_eq_none]

theorem readStringAux_ext_w :
    ∀ (rem src : List Char) (val : List Nat) (w : Bool), w = true → ∀ (ext : List Char),
      extStable (readStringAux rem src val w) (readStringAux (rem ++ ext) src val w) ext := by
  intro rem src val w
  induction rem, src, val, w using readStringAux.induct <;> intro hw ext <;> try subst hw
  all_goals try exact absurd rfl (by assumption)
  all_goals try (simp [readStringAux, extStable])
  all_goals try (simp_all [readStringAux, extStable, Option.isNone_iff_eq_none,
    readString_hexA_err, readString_hexB_err, readString_hexC_err])
  case case22 e rest2 src2 val2 n h0 h1 h2 h3 h4 hesc ih =>
    have hu : e ≠ 'u' := by
      intro h
      rcases rest2 with _ | ⟨a, _ | ⟨b, _ | ⟨c, _ | ⟨d, r⟩⟩⟩⟩
      · exact h0 h rfl
      · exact h1 a h rfl
      · exact h2 a b h rfl
      · exact h3 a b c h rfl
      · exact h4 a b c d r h rfl
    have hstep : readStringAux ('\\' :: e :: (rest2 ++ ext)) src2 val2 true =
        readStringAux (rest2 ++ ext) (src2 ++ ['\\', e]) (val2 ++ [n]) true := by
      simp [readStringAux, hesc, hu]
    rw [hstep]
    exact ih ext
  case case23 e rest2 src2 val2 h0 h1 h2 h3 h4 hesc =>
    have hu : e ≠ 'u' := by
      intro h
      rcases rest2 with _ | ⟨a, _ | ⟨b, _ | ⟨c, _ | ⟨d, r⟩⟩⟩⟩
      · exact h0 h rfl
      · exact h1 a h rfl
      · exact h2 a b h rfl
      · exact h3 a b c h rfl
      · exact h4 a b c d r h rfl
    simp [readStringAux, hesc, hu]
  case case24 c rest2 src2 val2 hq h1 h2 ih =>
    have hu : c ≠ '\\' := by
      intro h
      rcases rest2 with _ | ⟨e, r⟩
      · exact h1 h rfl
      · exact h2 e r h rfl
    have hstep : readStringAux (c :: (rest2 ++ ext)) src2 val2 true =
        readStringAux (rest2 ++ ext) (src2 ++ [c]) (val2 ++ [c.toNat]) true := by
      simp [readStringAux, hq, hu]
    rw [hstep]
    exact ih ext

theorem readStringAux_ext (rem src : List Char) (val : List Nat) (ext : List Char) :
    extStable (readStringAux rem src val true) (readStringAux (rem ++ ext) src val true) ext :=
  readStringAux_ext_w rem src val true rfl ext

theorem digitRun_ext :
    ∀ (rem ext : List Char),
      extStable (digitRun rem true) (digitRun (rem ++ ext) true) ext
  | [], ext => by simp [digitRun, extStable]
  | c :: cs, ext => by
    by_cases hc : c.isDigit
    · have ih := digitRun_ext cs ext
      rcases hres : digitRun cs true with ⟨ds, rest⟩ | r | _ | e <;>
        rw [hres] at ih <;> simp_all [digitRun, extStable]
    · simp [digitRun, hc, extStable]

theorem numAfterInt_ext (sgn : List Char) (d : Char) (ds rest3 ext : List Char) :
    extStable (numAfterInt sgn d ds rest3 true) (numAfterInt sgn d ds (rest3 ++ ext) true) ext := by
  cases rest3 with
  | nil => simp [numAfterInt, extStable]
  | cons p rest4 =>
    by_cases hp : p = '.'
    · have ih := digitRun_ext rest4 ext
      rcases hres : digitRun rest4 true with ⟨ds2, rest5⟩ | r | _ | e <;>
        rw [hres] at ih <;> simp_all [numAfterInt, hp, extStable]
    · simp [numAfterInt, hp, extStable]

theorem numAfterSign_ext (sgn : List Char) (rest1 ext : List Char) :
    extStable (numAfterSign sgn rest1 true) (numAfterSign sgn (rest1 ++ ext) true) ext := by
  cases rest1 with
  | nil => simp [numAfterSign, extStable]
  | cons d rest2 =>
    by_cases hd : d.isDigit
    · by_cases h0 : d = '0'
      · simpa [numAfterSign, hd, h0] using numAfterInt_ext sgn d [] rest2 ext
      · have ih := digitRun_ext rest2 ext
        rcases hres : digitRun rest2 true with ⟨ds, rest3⟩ | r | _ | e <;>
          rw [hres] at ih <;>
            simp_all [numAfterSign, hd, h0, extStable]
        · exact numAfterInt_ext sgn d ds rest3 ext
    · simp [numAfterSign, hd, extStable]

theorem readNumberAux_ext (rem ext : List Char) :
    extStable (readNumberAux rem true) (readNumberAux (rem ++ ext) true) ext := by
  cases rem with
  | nil => simp [readNumberAux, extStable]
  | cons c0 rest0 =>
    by_cases hc : c0 = '-'
    · simpa [readNumberAux, hc] using numAfterSign_ext [c0] rest0 ext
    · simpa [readNumberAux, hc] using numAfterSign_ext [] (c0 :: rest0) ext

theorem readTok_ext (rem ext : List Char) :
    extStable (readTok rem true) (readTok (rem ++ ext) true) ext := by
  cases hd : dropWs rem with
  | nil => simp [readTok, hd, extStable]
  | cons c rest =>
    have happ : dropWs (rem ++ ext) = c :: (rest ++ ext) := by
      rw [dropWs_app, hd]
      simp
    rw [readTok, readTok, hd, happ]
    dsimp only
    by_cases h1 : c = ',' ∨ c = ':' ∨ c = '[' ∨ c = ']' ∨ c = '{' ∨ c = '}'
    · simp [h1, extStable]
    · by_cases h2 : c = 'n'
      · have ih := readLiteralAux_ext ['n', 'u', 'l', 'l'] (c :: rest) ext
        rcases hres : readLiteralAux ['n', 'u', 'l', 'l'] (c :: rest) true
            with ⟨u, rest2⟩ | r | _ | e <;>
          rw [hres] at ih <;> simp_all [extStable]
      · by_cases h3 : c = 't'
        · have ih := readLiteralAux_ext ['t', 'r', 'u', 'e'] (c :: rest) ext
          rcases hres : readLiteralAux ['t', 'r', 'u', 'e'] (c :: rest) true
              with ⟨u, rest2⟩ | r | _ | e <;>
            rw [hres] at ih <;> simp_all [extStable]
        · by_cases h4 : c = 'f'
          · have ih := readLiteralAux_ext ['f', 'a', 'l', 's', 'e'] (c :: rest) ext
            rcases hres : readLiteralAux ['f', 'a', 'l', 's', 'e'] (c :: rest) true
                with ⟨u, rest2⟩ | r | _ | e <;>
              rw [hres] at ih <;> simp_all [extStable]
          · by_cases h5 : c = '"'
            · have ih := readStringAux_ext rest ['"'] [] ext
              rcases hres : readStringAux rest ['"'] [] true
                  with ⟨sv, rest2⟩ | r | _ | e <;>
                rw [hres] at ih <;> simp_all [extStable]
            · by_cases h6 : c = '-' ∨ c.isDigit
              · have ih := readNumberAux_ext (c :: rest) ext
                rcases hres : readNumberAux (c :: rest) true
                    with ⟨sv, rest2⟩ | r | _ | e <;>
                  rw [hres] at ih <;> simp_all [extStable]
              · simp [h1, h2, h3, h4, h5, h6, extStable]

/-! ### Fuel adequacy: every successful read consumes at least one character -/

theorem dropWs_length_le (l : List Char) : (dropWs l).length ≤ l.length := by
  induction l with
  | nil => simp [dropWs]
  | cons c cs ih =>
    by_cases h : isWs c <;> simp [dropWs, List.dropWhile_cons, h] at * <;> omega

theorem readLiteralAux_ok_length :
    ∀ (lit rem : List Char) (w : Bool) (u : Unit) (rest : List Char),
      readLiteralAux lit rem w = .ok u rest → rest.length + lit.length = rem.length
  | [], rem, w, u, rest => by
    intro h
    simp [readLiteralAux] at h
    simp [h]
  | _ :: _, [], w, u, rest => by
    intro h
    by_cases hw : w <;> simp [readLiteralAux, hw] at h
  | l :: ls, c :: cs, w, u, rest => by
    intro h
    by_cases hc : c = l
    · have := readLiteralAux_ok_length ls cs w u rest (by simpa [readLiteralAux, hc] using h)
      simp
      omega
    · simp [readLiteralAux, hc] at h

theorem digitRun_ok_length :
    ∀ (rem : List Char) (w : Bool) (ds rest : List Char),
      digitRun rem w = .ok ds rest → rest.length ≤ rem.length
  | [], w, ds, rest => by
    intro h
    by_cases hw : w <;> simp [digitRun, hw] at h
    simp [h]
  | c :: cs, w, ds, rest => by
    intro h
    by_cases hc : c.isDigit
    · rw [digitRun] at h
      rcases hres : digitRun cs w with ⟨ds2, rest2⟩ | r | _ | e <;>
        rw [hres] at h <;> simp [hc] at h
      have := digitRun_ok_length cs w ds2 rest2 hres
      simp [← h.2]
      omega
    · simp [digitRun, hc] at h
      simp [← h.2]

theorem numAfterInt_ok_length (sgn : List Char) (d : Char) (ds rest3 : List Char)
    (w : Bool) (sv : List Char × PyVal) (rest : List Char)
    (h : numAfterInt sgn d ds rest3 w = .ok sv rest) : rest.length ≤ rest3.length := by
  cases rest3 with
  | nil =>
    by_cases hw : w <;> simp [numAfterInt, hw] at h
    simp [h]
  | cons p rest4 =>
    by_cases hp : p = '.'
    · rw [numAfterInt] at h
      rcases hres : digitRun rest4 w with ⟨ds2, rest5⟩ | r | _ | e <;>
        rw [hres] at h <;> simp [hp] at h
      have := digitRun_ok_length rest4 w ds2 rest5 hres
      simp [← h.2]
      omega
    · simp [numAfterInt, hp] at h
      simp [← h.2]

theorem numAfterSign_ok_length (sgn rest1 : List Char) (w : Bool)
    (sv : List Char × PyVal) (rest : List Char)
    (h : numAfterSign sgn rest1 w = .ok sv rest) : rest.length < rest1.length := by
  cases rest1 with
  | nil =>
    by_cases hw : w <;> simp [numAfterSign, hw] at h
  | cons d rest2 =>
    by_cases hd : d.isDigit
    · rw [numAfterSign] at h
      by_cases h0 : d = '0'
      · subst h0
        simp [hd] at h
        have := numAfterInt_ok_length sgn '0' [] rest2 w sv rest h
        simp
        omega
      · rcases hres : digitRun rest2 w with ⟨ds, rest3⟩ | r | _ | e <;>
          rw [hres] at h <;> simp [hd, h0] at h
        have h1 := digitRun_ok_length rest2 w ds rest3 hres
        have h2 := numAfterInt_ok_length sgn d ds rest3 w sv rest h
        simp
        omega
    · simp [numAfterSign, hd] at h

theorem readNumberAux_ok_length (rem : List Char) (w : Bool)
    (sv : List Char × PyVal) (rest : List Char)
    (h : readNumberAux rem w = .ok sv rest) : rest.length < rem.length := by
  cases rem with
  | nil =>
    by_cases hw : w <;> simp [readNumberAux, hw] at h
  | cons c0 rest0 =>
    by_cases hc : c0 = '-'
    · have := numAfterSign_ok_length [c0] rest0 w sv rest (by simpa [readNumberAux, hc] using h)
      simp
      omega
    · have := numAfterSign_ok_length [] (c0 :: rest0) w sv rest
        (by simpa [readNumberAux, hc] using h)
      simpa using this

theorem readStringAux_ok_length :
    ∀ (rem src : List Char) (val : List Nat) (w : Bool) (sv : List Char × PyVal)
      (rest : List Char), readStringAux rem src val w = .ok sv rest →
        rest.length < rem.length := by
  intro rem src val w
  induction rem, src, val, w using readStringAux.induct <;> intro sv rest h
  all_goals try (simp [readStringAux] at h)
  all_goals try simp_all
  case case20 =>
    rename_i a b c d rest6 src2 val2 w2 va vb vc vd hd2 hc2 hb2 ha2 ih
    simp [ha2, hb2, hc2, hd2] at h
    have := ih sv rest h
    simp
    omega
  case case22 =>
    rename_i e rest2 src2 val2 w2 g0 g1 g2 g3 g4 n hesc ih
    simp [hesc] at h
    have := ih sv rest h
    simp
    omega
  case case24 => omega

theorem readTok_ok_length (rem : List Char) (w : Bool) (sv : List Char × PyVal)
    (rest : List Char) (h : readTok rem w = .ok sv rest) : rest.length < rem.length := by
  have hle := dropWs_length_le rem
  rw [readTok] at h
  rcases hd : dropWs rem with _ | ⟨c, rest1⟩ <;> rw [hd] at h
  · by_cases hw : w <;> simp [hw] at h
  · have hlen : rest1.length + 1 = (dropWs rem).length := by simp [hd]
    dsimp only at h
    by_cases h1 : c = ',' ∨ c = ':' ∨ c = '[' ∨ c = ']' ∨ c = '{' ∨ c = '}'
    · simp [h1] at h
      obtain ⟨hsv, hrest⟩ := h
      subst hrest
      omega
    · simp [h1] at h
      by_cases h2 : c = 'n'
      · subst h2
        simp at h
        rcases hres : readLiteralAux ['n', 'u', 'l', 'l'] ('n' :: rest1) w
            with ⟨u, rest2⟩ | r | _ | e <;> rw [hres] at h <;> simp at h
        obtain ⟨hsv, hrest⟩ := h
        subst hrest
        have := readLiteralAux_ok_length _ _ _ _ _ hres
        simp at this
        omega
      · by_cases h3 : c = 't'
        · subst h3
          simp at h
          rcases hres : readLiteralAux ['t', 'r', 'u', 'e'] ('t' :: rest1) w
              with ⟨u, rest2⟩ | r | _ | e <;> rw [hres] at h <;> simp at h
          obtain ⟨hsv, hrest⟩ := h
          subst hrest
          have := readLiteralAux_ok_length _ _ _ _ _ hres
          simp at this
          omega
        · by_cases h4 : c = 'f'
          · subst h4
            simp at h
            rcases hres : readLiteralAux ['f', 'a', 'l', 's', 'e'] ('f' :: rest1) w
                with ⟨u, rest2⟩ | r | _ | e <;> rw [hres] at h <;> simp at h
            obtain ⟨hsv, hrest⟩ := h
            subst hrest
            have := readLiteralAux_ok_length _ _ _ _ _ hres
            simp at this
            omega
          · by_cases h5 : c = '"'
            · subst h5
              simp at h
              rcases hres : readStringAux rest1 ['"'] [] w
                  with ⟨sv2, rest2⟩ | r | _ | e <;> rw [hres] at h <;> simp at h
              obtain ⟨hsv, hrest⟩ := h
              subst hrest
              have := readStringAux_ok_length _ _ _ _ _ _ hres
              omega
            · by_cases h6 : c = '-' ∨ c.isDigit
              · simp [h2, h3, h4, h5, h6] at h
                rcases hres : readNumberAux (c :: rest1) w
                    with ⟨sv2, rest2⟩ | r | _ | e <;> rw [hres] at h <;> simp at h
                obtain ⟨hsv, hrest⟩ := h
                subst hrest
                have := readNumberAux_ok_length _ _ _ _ hres
                simp at this
                omega
              · simp [h2, h3, h4, h5, h6] at h

/-! ### Drain-level lemmas: suspension and resumption across chunk boundaries -/

/-- Prefix a list of already-yielded events onto a drain outcome. -/
def prependEvs (evs : List JEvent) : DrainRes → DrainRes
  | .await r s evs2 => .await r s (evs ++ evs2)
  | .eos evs2 => .eos (evs ++ evs2)
  | .fail e evs2 => .fail e (evs ++ evs2)
  | .stuck => .stuck

theorem prependEvs_nil (r : DrainRes) : prependEvs [] r = r := by
  cases r <;> simp [prependEvs]

theorem prependEvs_append (a b : List JEvent) (r : DrainRes) :
    prependEvs a (prependEvs b r) = prependEvs (a ++ b) r := by
  cases r <;> simp [prependEvs]

theorem readTok_true_ne_eos (rem : List Char) : readTok rem true ≠ .eos := by
  intro h
  have hext := readTok_ext rem []
  rw [h] at hext
  simpa [extStable] using hext

theorem drain_step (fuel : Nat) (rem : List Char) (w : Bool) (st : SState)
    (src : List Char) (v : PyVal) (rest : List Char) (st2 : SState) (ev : Option JEvent)
    (h1 : readTok rem w = .ok (src, v) rest) (h2 : handleTok st src v = .ok (st2, ev)) :
    drain (fuel + 1) rem w st = prependEvs ev.toList (drain fuel rest w st2) := by
  simp only [drain, h1, h2]
  rcases drain fuel rest w st2 <;> simp [prependEvs]

theorem drain_enough :
    ∀ (fuel : Nat) (rem : List Char) (w : Bool) (st : SState),
      rem.length < fuel → drain fuel rem w st ≠ .stuck := by
  intro fuel
  induction fuel with
  | zero => intro rem w st h; omega
  | succ f ih =>
    intro rem w st h
    rcases hres : readTok rem w with ⟨⟨src, v⟩, rest⟩ | r | _ | e
    · rcases hh : handleTok st src v with e2 | ⟨st2, ev⟩
      · simp [drain, hres, hh]
      · have hlt := readTok_ok_length rem w (src, v) rest hres
        have hne := ih rest w st2 (by omega)
        rcases hdr : drain f rest w st2 <;> simp_all [drain, hres, hh]
    · simp [drain, hres]
    · simp [drain, hres]
    · simp [drain, hres]

theorem drain_mono :
    ∀ (fuel : Nat) (rem : List Char) (w : Bool) (st : SState),
      drain fuel rem w st ≠ .stuck → drain (fuel + 1) rem w st = drain fuel rem w st := by
  intro fuel
  induction fuel with
  | zero => intro rem w st h; exact absurd rfl h
  | succ f ih =>
    intro rem w st h
    rcases hres : readTok rem w with ⟨⟨src, v⟩, rest⟩ | r | _ | e
    · rcases hh : handleTok st src v with e2 | ⟨st2, ev⟩
      · simp only [drain, hres, hh]
      · by_cases hin : drain f rest w st2 = .stuck
        · exfalso
          apply h
          simp only [drain, hres, hh, hin]
        · rw [drain_step (f + 1) rem w st src v rest st2 ev hres hh,
              drain_step f rem w st src v rest st2 ev hres hh, ih rest w st2 hin]
    · simp only [drain, hres]
    · simp only [drain, hres]
    · simp only [drain, hres]

theorem drain_eq_canonical :
    ∀ (f : Nat) (rem : List Char) (w : Bool) (st : SState), rem.length < f →
      drain f rem w st = drain (rem.length + 1) rem w st := by
  intro f
  induction f with
  | zero => intro rem w st h; omega
  | succ f ih =>
    intro rem w st h
    rcases Nat.lt_or_ge rem.length f with h2 | h2
    · rw [drain_mono f rem w st (drain_enough f rem w st h2), ih rem w st h2]
    · have : rem.length = f := by omega
      rw [this]

theorem drain_congr (f : Nat) (rem1 rem2 : List Char) (w : Bool) (st : SState)
    (h : readTok rem1 w = readTok rem2 w) :
    drain (f + 1) rem1 w st = drain (f + 1) rem2 w st := by
  simp only [drain, h]

theorem drain_not_eos :
    ∀ (f : Nat) (rem : List Char) (st : SState) (evs : List JEvent),
      drain f rem true st ≠ .eos evs := by
  intro f
  induction f with
  | zero => intro rem st evs; simp [drain]
  | succ f ih =>
    intro rem st evs
    rcases hres : readTok rem true with ⟨⟨src, v⟩, rest⟩ | r | _ | e
    · rcases hh : handleTok st src v with e2 | ⟨st2, ev⟩
      · simp [drain, hres, hh]
      · rcases hdr : drain f rest true st2 <;> simp_all [drain, hres, hh]
    · simp [drain, hres]
    · exact absurd hres (readTok_true_ne_eos rem)
    · simp [drain, hres]

theorem drain_ext_fail :
    ∀ (f : Nat) (rem : List Char) (st : SState) (e : TokErr) (evs : List JEvent)
      (ext : List Char) (g : Nat), rem.length < f → (rem ++ ext).length < g →
      drain f rem true st = .fail e evs → drain g (rem ++ ext) true st = .fail e evs := by
  intro f
  induction f with
  | zero => intro rem st e evs ext g h1 h2 h3; omega
  | succ f ih =>
    intro rem st e evs ext g h1 h2 h3
    cases g with
    | zero => omega
    | succ g0 =>
      rcases hres : readTok rem true with ⟨⟨src, v⟩, rest⟩ | r | _ | e0
      · have hext := readTok_ext rem ext
        rw [hres] at hext
        simp only [extStable] at hext
        rcases hh : handleTok st src v with e2 | ⟨st2, ev⟩
        · simp only [drain, hres, hh] at h3
          simp only [drain, hext, hh]
          exact h3
        · rw [drain_step f rem true st src v rest st2 ev hres hh] at h3
          rcases hdr : drain f rest true st2 with ⟨r2, s2, evs2⟩ | ⟨evs2⟩ | ⟨e3, evs2⟩ | _ <;>
            rw [hdr] at h3 <;> simp [prependEvs] at h3
          have hlt := readTok_ok_length rem true (src, v) rest hres
          have hlt2 : (rest ++ ext).length < g0 := by
            simp at h2 ⊢
            omega
          have := ih rest st2 e3 evs2 ext g0 (by omega) hlt2 hdr
          rw [drain_step g0 (rem ++ ext) true st src v (rest ++ ext) st2 ev hext hh, this]
          simp [prependEvs, ← h3.1, ← h3.2]
      · simp only [drain, hres] at h3
        simp at h3
      · exact absurd hres (readTok_true_ne_eos rem)
      · have hext := readTok_ext rem ext
        rw [hres] at hext
        simp only [extStable] at hext
        simp only [drain, hres] at h3
        simp only [drain, hext]
        exact h3

theorem drain_ext_await :
    ∀ (f : Nat) (rem : List Char) (st : SState) (r1 : List Char) (st1 : SState)
      (evs : List JEvent) (ext : List Char) (g : Nat),
      rem.length < f → (rem ++ ext).length < g →
      drain f rem true st = .await r1 st1 evs →
      drain g (rem ++ ext) true st =
        prependEvs evs (drain ((r1 ++ ext).length + 1) (r1 ++ ext) true st1) := by
  intro f
  induction f with
  | zero => intro rem st r1 st1 evs ext g h1 h2 h3; omega
  | succ f ih =>
    intro rem st r1 st1 evs ext g h1 h2 h3
    cases g with
    | zero => omega
    | succ g0 =>
      rcases hres : readTok rem true with ⟨⟨src, v⟩, rest⟩ | r | _ | e0
      · have hext := readTok_ext rem ext
        rw [hres] at hext
        simp only [extStable] at hext
        rcases hh : handleTok st src v with e2 | ⟨st2, ev⟩
        · simp only [drain, hres, hh] at h3
          simp at h3
        · rw [drain_step f rem true st src v rest st2 ev hres hh] at h3
          rcases hdr : drain f rest true st2 with ⟨r2, s2, evs2⟩ | ⟨evs2⟩ | ⟨e3, evs2⟩ | _ <;>
            rw [hdr] at h3 <;> simp [prependEvs] at h3
          have hlt := readTok_ok_length rem true (src, v) rest hres
          have hlt2 : (rest ++ ext).length < g0 := by
            simp at h2 ⊢
            omega
          obtain ⟨he1, he2, he3⟩ := h3
          subst he1
          subst he2
          have := ih rest st2 r2 s2 evs2 ext g0 (by omega) hlt2 hdr
          rw [drain_step g0 (rem ++ ext) true st src v (rest ++ ext) st2 ev hext hh, this,
              prependEvs_append, he3]
      · simp only [drain, hres] at h3
        simp at h3
        obtain ⟨he1, he2, he3⟩ := h3
        subst he1
        subst he2
        subst he3
        have hpay := readTok_await_payload hres
        have hcongr : readTok (rem ++ ext) true = readTok (r ++ ext) true := by
          rw [hpay]
          exact (readTok_dropWs_app rem ext true).symm
        rw [drain_congr g0 (rem ++ ext) (r ++ ext) true st hcongr]
        have hb : (r ++ ext).length < g0 + 1 := by
          have hr1 : r.length ≤ rem.length := by
            rw [hpay]
            exact dropWs_length_le rem
          simp at h2 ⊢
          omega
        rw [drain_eq_canonical (g0 + 1) (r ++ ext) true st hb, prependEvs_nil]
      · exact absurd hres (readTok_true_ne_eos rem)
      · simp only [drain, hres] at h3
        simp at h3

/-! ### Chunk-boundary invariance of the whole decode run -/

theorem runAux_merge (c1 c2 : String) (cs : List String) (rem : List Char) (st : SState) :
    runAux (c1 :: c2 :: cs) rem st = runAux ((c1 ++ c2) :: cs) rem st := by
  have hl : rem ++ (c1 ++ c2).toList = (rem ++ c1.toList) ++ c2.toList := by
    simp [String.toList]
  rw [runAux.eq_def]
  conv_rhs => rw [runAux.eq_def]
  dsimp only
  rw [hl]
  rcases hd1 : drain ((rem ++ c1.toList).length + 1) (rem ++ c1.toList) true st
      with ⟨r1, st1, evs⟩ | ⟨evs⟩ | ⟨e, evs⟩ | _
  · have h2 := drain_ext_await ((rem ++ c1.toList).length + 1) (rem ++ c1.toList) st r1 st1
      evs c2.toList (((rem ++ c1.toList) ++ c2.toList).length + 1) (by omega)
      (by omega) hd1
    rw [h2]
    dsimp only
    rw [runAux.eq_def]
    dsimp only
    rcases hd2 : drain ((r1 ++ c2.toList).length + 1) (r1 ++ c2.toList) true st1
        with ⟨r2, st2, evs2⟩ | ⟨evs2⟩ | ⟨e2, evs2⟩ | _
    · simp [prependEvs]
    · exact absurd hd2 (drain_not_eos _ _ _ _)
    · simp [prependEvs]
    · exact absurd hd2 (drain_enough _ _ _ _ (by omega))
  · exact absurd hd1 (drain_not_eos _ _ _ _)
  · have h2 := drain_ext_fail ((rem ++ c1.toList).length + 1) (rem ++ c1.toList) st e evs
      c2.toList (((rem ++ c1.toList) ++ c2.toList).length + 1) (by omega) (by omega) hd1
    rw [h2]
  · exact absurd hd1 (drain_enough _ _ _ _ (by omega))

theorem runAux_chunks :
    ∀ (cs : List String) (c1 : String) (rem : List Char) (st : SState),
      runAux (c1 :: cs) rem st = runAux [cs.foldl (· ++ ·) c1] rem st
  | [], c1, rem, st => rfl
  | c2 :: cs, c1, rem, st => by
    rw [runAux_merge c1 c2 cs rem st]
    exact runAux_chunks cs (c1 ++ c2) rem st

theorem jsonStream_chunks (chunks : List String) :
    jsonStream chunks = jsonStream [String.join chunks] := by
  cases chunks with
  | nil => rfl
  | cons c1 cs =>
    have h := runAux_chunks cs c1 [] initSState
    have hj : String.join (c1 :: cs) = cs.foldl (· ++ ·) c1 := by
      simp [String.join]
    rw [jsonStream, jsonStream, hj]
    exact h

/-! ### Claim theorems for the JSON decoder -/

/-- C1: for every JSON document and every way of splitting its text into a
sequence of non-empty chunks (including one character per chunk), iterating
`JSONStream` produces the same events and terminal outcome as decoding the
whole document in a single chunk, so `assembled` returns the same final
value.  (The theorem in fact proves the whole run equal, which gives the
assembled-value equality of the claim as the second conjunct.) -/
theorem C1_chunking_invariance (doc : String) (chunks : List String)
    (hne : ∀ c ∈ chunks, c ≠ "") (hjoin : String.join chunks = doc) :
    jsonStream chunks = jsonStream [doc] ∧
      assembled (jsonStream chunks).1 = assembled (jsonStream [doc]).1 := by
  subst hjoin
  refine ⟨jsonStream_chunks chunks, ?_⟩
  rw [jsonStream_chunks chunks]

/-- Witness for C1 at a concrete split: `["[1,", "2]"]` versus `["[1,2]"]`. -/
theorem C1_chunking_invariance_witness :
    (∀ c ∈ ["[1,", "2]"], c ≠ "") ∧
      (jsonStream ["[1,", "2]"] = jsonStream ["[1,2]"] ∧
        assembled (jsonStream ["[1,", "2]"]).1 = assembled (jsonStream ["[1,2]"]).1) :=
  ⟨by decide, C1_chunking_invariance "[1,2]" ["[1,", "2]"] (by decide) (by decide)⟩

/-- C2 (code bug): iterating `JSONStream` over `'["foo", ["bar", "baz"], 19]'`
does NOT emit the claimed `((), [])` and `((1,), [])` container-open events:
`JSONStream._open_array` pushes the index and sets the expectation but emits
nothing, so the run yields exactly the four leaf events below (the
repository's own test `test_nested_arrays` expects six events including the
two empty-array ones). -/
theorem C2_no_open_array_events :
    jsonStream ["[\"foo\", [\"bar\", \"baz\"], 19]"] =
      ([([PyVal.int 0], PyVal.str (strCodes "foo")),
        ([PyVal.int 1, PyVal.int 0], PyVal.str (strCodes "bar")),
        ([PyVal.int 1, PyVal.int 1], PyVal.str (strCodes "baz")),
        ([PyVal.int 2], PyVal.int 19)], Option.none) ∧
      (jsonStream ["[\"foo\", [\"bar\", \"baz\"], 19]"]).1.length = 4 := by
  constructor <;> rfl

/-- C8: when a `read()` attempt exhausts the buffered data while the stream
is writable, `AwaitingData` is raised with the cursor rewound to where the
token attempt began (just after any skipped whitespace; the buffer itself is
immutable in this embedding, mirroring that reads never alter it), and a
retry after any further `write` re-scans the token from that position with
exactly the same outcome as re-reading from the original position. -/
theorem C8_awaiting_rewinds (rem r1 : List Char)
    (h : readTok rem true = .await r1) :
    r1 = dropWs rem ∧
      ∀ ext : List Char, readTok (r1 ++ ext) true = readTok (rem ++ ext) true := by
  have hp := readTok_await_payload h
  exact ⟨hp, fun ext => by rw [hp]; exact readTok_dropWs_app rem ext true⟩

/-- Witness for C8 at a concrete partial literal: reading from `"  tru"`. -/
theorem C8_awaiting_rewinds_witness :
    "tru".toList = dropWs "  tru".toList ∧
      ∀ ext : List Char,
        readTok ("tru".toList ++ ext) true = readTok ("  tru".toList ++ ext) true :=
  C8_awaiting_rewinds "  tru".toList "tru".toList (by rfl)

/-! ### URI engine (`httpstream/uri.py`)

Strings are modelled as `List Char`.  Python `str` here only ever holds
real code points (the URI code never builds surrogates), so Lean `Char` is
adequate; `percent_decode` only constructs characters below 256. -/

/-- Characters of the `unreserved` set from the source. -/
def unreservedChars : List Char :=
  "-.0123456789ABCDEFGHIJKLMNOPQRSTUVWXYZ_abcdefghijklmnopqrstuvwxyz~".toList

/-- General delimiters `:/?#[]@` (RFC 3986). -/
def generalDelimiters : List Char := ":/?#[]@".toList

/-- Subcomponent delimiters (RFC 3986); the apostrophe is written as a
character literal. -/
def subcomponentDelimiters : List Char :=
  ['!', '$', '&', '\'', '(', ')', '*', '+', ',', ';', '=']

/-- The `reserved` set of the source. -/
def reservedChars : List Char := generalDelimiters ++ subcomponentDelimiters

/-- Uppercase hex digit for a value below 16. -/
def hexUpperDigit (n : Nat) : Char := "0123456789ABCDEF".toList.getD n 'X'

/-- Hex digits (no padding) of `n`, most significant first; fuel-driven so
that it evaluates by `rfl`/`decide` (fuel `n + 1` always suffices since the
value shrinks by a factor of 16 each step). -/
def natToHexAux : Nat → Nat → List Char
  | 0, _ => []
  | fuel + 1, n => if n = 0 then [] else natToHexAux fuel (n / 16) ++ [hexUpperDigit (n % 16)]

/-- Model of Python `hex(n)[2:].upper()` for `n ≥ 0`. -/
def natToHexUpper (n : Nat) : List Char :=
  if n = 0 then ['0'] else natToHexAux (n + 1) n

/-- Model of `.zfill(2)`. -/
def zfill2 (l : List Char) : List Char :=
  if l.length < 2 then List.replicate (2 - l.length) '0' ++ l else l

/-- The replacement the source builds for an encoded character:
`"%" + hex(ord(char))[2:].upper().zfill(2)` — note that characters above
U+00FF produce three or four hex digits. -/
def pctEncodeChar (c : Char) : List Char := '%' :: zfill2 (natToHexUpper c.toNat)

/-- Model of `percent_encode(data, safe)`: every character that is `%` or
not in `unreserved ∪ safe` is replaced by its hex escape.  The Python
`safe=None` / empty default corresponds to `safe = []`. -/
def percent_encode (data : List Char) (safe : List Char) : List Char :=
  data.foldr
    (fun c acc =>
      (if c = '%' ∨ ¬ (unreservedChars ++ safe).contains c then pctEncodeChar c else [c]) ++ acc)
    []

/-- Model of `percent_decode(data)`: scan left to right for `%` followed by
exactly two hex digits (the `re.split("(%[0-9A-Fa-f]{2})", ...)` semantics)
and replace each match by the character it denotes. -/
def percent_decode : List Char → List Char
  | '%' :: h1 :: h2 :: rest =>
    match hexDigitVal h1, hexDigitVal h2 with
    | some v1, some v2 => Char.ofNat (16 * v1 + v2) :: percent_decode rest
    | _, _ => '%' :: percent_decode (h1 :: h2 :: rest)
  | c :: rest => c :: percent_decode rest
  | [] => []

/-- Split at the last occurrence of `c` (Python `rpartition` without the
separator), provided `c` occurs. -/
def splitLast (s : List Char) (c : Char) : List Char × List Char :=
  let revAfter := s.reverse.takeWhile (· ≠ c)
  let revBefore := (s.reverse.dropWhile (· ≠ c)).tail
  (revBefore.reverse, revAfter.reverse)

/-- Split at the first occurrence of `c` (Python `partition` without the
separator), provided `c` occurs. -/
def splitFirst (s : List Char) (c : Char) : List Char × List Char :=
  (s.takeWhile (· ≠ c), (s.dropWhile (· ≠ c)).tail)

/-- Model of Python `int(str)` as used for ports and `:N` modifiers:
optional surrounding whitespace, optional sign, then one or more digits
(`Option.none` models `ValueError`). -/
def pyIntParse (s : List Char) : Option Int :=
  let t := ((s.dropWhile isWs).reverse.dropWhile isWs).reverse
  let (neg, digits) :=
    match t with
    | '-' :: r => (true, r)
    | '+' :: r => (false, r)
    | r => (false, r)
  if digits ≠ [] ∧ digits.all Char.isDigit then
    some (if neg then -(digitsToNat digits : Int) else (digitsToNat digits : Int))
  else Option.none

/-- Decoded components of an `Authority`: `_user_info`, `_host`, `_port`. -/
structure AuthorityRec where
  user_info : Option (List Char)
  host : Option (List Char)
  port : Option Int
deriving DecidableEq, Repr

/-- Model of `Authority.__init__` on a non-`None` string: the rightmost `:`
always splits off the port (which must parse as an int — `ValueError`
otherwise), then the rightmost `@` splits user-info from host, and both are
percent-decoded. -/
def authorityParse (s : List Char) : Except String AuthorityRec :=
  let step1 : Except String (List Char × Option Int) :=
    if s.contains ':' then
      match pyIntParse (splitLast s ':').2 with
      | some n => .ok ((splitLast s ':').1, some n)
      | Option.none => .error "ValueError"
    else .ok (s, Option.none)
  match step1 with
  | .error e => .error e
  | .ok (s1, port) =>
    if s1.contains '@' then
      .ok ⟨some (percent_decode (splitLast s1 '@').1),
           some (percent_decode (splitLast s1 '@').2), port⟩
    else .ok ⟨Option.none, some (percent_decode s1), port⟩

/-- Decimal digits of a non-negative integer (for `str(port)`). -/
def natDigits : Nat → List Char
  | n => (Nat.toDigits 10 n)

/-- Model of the `Authority.string` property: user-info is re-encoded (so
`@` becomes `%40`), the host is emitted as stored, the port is appended. -/
def authorityString (a : AuthorityRec) : Option (List Char) :=
  match a.host with
  | Option.none => Option.none
  | some h =>
    some ((match a.user_info with
           | some u => percent_encode u [] ++ ['@']
           | Option.none => []) ++ h ++
          (match a.port with
           | some p => ':' :: (if p < 0 then '-' :: natDigits p.natAbs else natDigits p.natAbs)
           | Option.none => []))

/-- A `Path` part: the percent-decoded string (or `None`). -/
structure PathRec where
  path : Option (List Char)
deriving DecidableEq, Repr

/-- Model of `Path.__init__` on a non-`None` string. -/
def pathMk (s : List Char) : PathRec := ⟨some (percent_decode s)⟩

/-- Model of the `Path.string` property: re-encode with `/` safe. -/
def pathStr (p : PathRec) : Option (List Char) :=
  p.path.map (fun d => percent_encode d ['/'])

/-- Model of `str(path)` (empty for `None`). -/
def pathStrD (p : PathRec) : List Char := (pathStr p).getD []

/-- Python `out.rpartition("/")[0]`: text before the last `/`, or `""`. -/
def rpartBefore (s : List Char) (c : Char) : List Char :=
  if s.contains c then (splitLast s c).1 else []

/-- Loop body of `Path.remove_dot_segments` (RFC 3986 §5.2.4 as written in
the source), fuel-driven: each iteration strictly shortens the input, so
fuel `inp.length + 1` always suffices. -/
def rdsAux : Nat → List Char → List Char → List Char
  | 0, _, out => out
  | fuel + 1, inp, out =>
    if inp = [] then out
    else if inp.take 3 = "../".toList then rdsAux fuel (inp.drop 3) out
    else if inp.take 2 = "./".toList then rdsAux fuel (inp.drop 2) out
    else if inp.take 3 = "/./".toList then rdsAux fuel (inp.drop 2) out
    else if inp = "/.".toList then rdsAux fuel ['/'] out
    else if inp.take 4 = "/../".toList then rdsAux fuel (inp.drop 3) (rpartBefore out '/')
    else if inp = "/..".toList then rdsAux fuel ['/'] (rpartBefore out '/')
    else if inp = ['.'] ∨ inp = "..".toList then rdsAux fuel [] out
    else
      let inp1 := if inp.head? = some '/' then inp.tail else inp
      let out1 := if inp.head? = some '/' then out ++ ['/'] else out
      rdsAux fuel (inp1.dropWhile (· ≠ '/')) (out1 ++ inp1.takeWhile (· ≠ '/'))

/-- Model of `Path.remove_dot_segments`: run the loop on the re-encoded
string and wrap the output in a new `Path` (which percent-decodes it). -/
def remove_dot_segments (p : PathRec) : PathRec :=
  pathMk (rdsAux ((pathStrD p).length + 1) (pathStrD p) [])

/-- Ordered-dict update: replace the value at the first matching key
(keeping its position), else append. -/
def odUpdate {K V : Type} [DecidableEq K] (acc : List (K × V)) (k : K) (v : V) :
    List (K × V) :=
  match acc with
  | [] => [(k, v)]
  | (k0, v0) :: rest => if k0 = k then (k0, v) :: rest else (k0, v0) :: odUpdate rest k v

/-- Python `str.split(sep)` for a single-character separator, fuel-driven
(fuel `s.length + 1` suffices; each piece consumes its separator). -/
def splitAllAux (c : Char) : Nat → List Char → List (List Char)
  | 0, s => [s]
  | fuel + 1, s =>
    match s.dropWhile (· ≠ c) with
    | [] => [s.takeWhile (· ≠ c)]
    | _ :: tl => s.takeWhile (· ≠ c) :: splitAllAux c fuel tl

/-- Python `s.split(c)`. -/
def splitAll (s : List Char) (c : Char) : List (List Char) :=
  splitAllAux c (s.length + 1) s

/-- Model of `Query.decode` on a non-`None` string: an `OrderedDict` built
with `data[key] = value`, so a repeated key keeps its first position but is
overwritten with the last value.  A bit without `=` maps to `None`. -/
def queryDecode (s : List Char) : List (List Char × Option (List Char)) :=
  if s = [] then []
  else
    (splitAll s '&').foldl
      (fun acc bit =>
        if bit.contains '=' then
          odUpdate acc (percent_decode (splitFirst bit '=').1)
            (some (percent_decode (splitFirst bit '=').2))
        else odUpdate acc (percent_decode bit) Option.none)
      []

/-- Model of `Query.encode` on the ordered dict held by a `Query`. -/
def queryEncode (q : List (List Char × Option (List Char))) : List Char :=
  match q with
  | [] => []
  | [(k, v)] =>
    percent_encode k [] ++ (match v with
                            | some s => '=' :: percent_encode s []
                            | Option.none => [])
  | (k, v) :: rest =>
    percent_encode k [] ++ (match v with
                            | some s => '=' :: percent_encode s []
                            | Option.none => []) ++ '&' :: queryEncode rest

/-- Decoded components of a URI. -/
structure URIRec where
  scheme : Option (List Char)
  authority : Option AuthorityRec
  path : Option PathRec
  query : Option (List (List Char × Option (List Char)))
  fragment : Option (List Char)
deriving DecidableEq, Repr

/-- Model of `URI.__init__` on a non-`None` string: split off scheme (first
`:`), fragment (first `#`), query (first `?`), then the hierarchical part
(`//` introduces an authority, up to the next `/`).  Fallible because the
authority's port must parse as an int. -/
def uriParse (value : List Char) : Except String URIRec := do
  let (scheme, v1) :=
    if value.contains ':' then
      (some (percent_decode (splitFirst value ':').1), (splitFirst value ':').2)
    else (Option.none, value)
  let (v2, fragment) :=
    if v1.contains '#' then
      ((splitFirst v1 '#').1, some (percent_decode (splitFirst v1 '#').2))
    else (v1, Option.none)
  let (v3, query) :=
    if v2.contains '?' then
      ((splitFirst v2 '?').1, some (queryDecode (splitFirst v2 '?').2))
    else (v2, Option.none)
  if v3.take 2 = "//".toList then
    let v4 := v3.drop 2
    if v4.contains '/' then
      let auth ← authorityParse (v4.takeWhile (· ≠ '/'))
      pure ⟨scheme, some auth, some (pathMk (v4.dropWhile (· ≠ '/'))), query, fragment⟩
    else
      let auth ← authorityParse v4
      pure ⟨scheme, some auth, some (pathMk []), query, fragment⟩
  else
    pure ⟨scheme, Option.none, some (pathMk v3), query, fragment⟩

/-- Truthiness of `URI._path` (`not reference.path`): false for `None` and
for an empty path. -/
def pathFalsy : Option PathRec → Bool
  | Option.none => true
  | some pr =>
    match pr.path with
    | Option.none => true
    | some d => d = []

/-- Model of `URI._merge_path` (RFC 3986 §5.3 as written in the source):
with an authority and an empty base path, prefix `/`; otherwise replace the
last segment of the base path with the reference path.  The join mixes the
decoded base segments with the re-encoded reference string and re-decodes,
exactly as `Path("/".join(segments) + str(relative_path_reference))` does. -/
def mergePath (base : URIRec) (ref : PathRec) : PathRec :=
  if base.authority ≠ Option.none ∧ pathFalsy base.path then
    pathMk ('/' :: pathStrD ref)
  else
    let bd := (base.path.getD ⟨Option.none⟩).path.getD []
    if (pathStrD (base.path.getD ⟨Option.none⟩)).contains '/' then
      pathMk (List.intercalate ['/'] ((splitAll bd '/').dropLast ++ [[]]) ++ pathStrD ref)
    else ref

/-- Model of `URI.resolve` (RFC 3986 §5.2.2 as written in the source). -/
def resolve (base ref : URIRec) (strict : Bool) : URIRec :=
  let refScheme := if ¬ strict ∧ ref.scheme = base.scheme then Option.none else ref.scheme
  if refScheme ≠ Option.none then
    ⟨refScheme, ref.authority, ref.path.map remove_dot_segments, ref.query, ref.fragment⟩
  else if ref.authority ≠ Option.none then
    ⟨base.scheme, ref.authority, ref.path.map remove_dot_segments, ref.query, ref.fragment⟩
  else if pathFalsy ref.path then
    ⟨base.scheme, base.authority, base.path,
     (if ref.query ≠ Option.none then ref.query else base.query), ref.fragment⟩
  else
    ⟨base.scheme, base.authority,
     (if (pathStrD (ref.path.getD ⟨Option.none⟩)).head? = some '/' then
        ref.path.map remove_dot_segments
      else
        some (remove_dot_segments (mergePath base (ref.path.getD ⟨Option.none⟩)))),
     ref.query, ref.fragment⟩

/-- Resolve one URI string against another (both must parse). -/
def resolveStr (b r : List Char) : Except String URIRec := do
  let bu ← uriParse b
  let ru ← uriParse r
  pure (resolve bu ru true)

/-- URI equality as `URI.__eq__` defines it: componentwise on the decoded
values (scheme, authority fields, decoded path, query pairs, fragment).
Structural equality of the records is exactly that comparison. -/
def uriEq (a b : URIRec) : Bool := a == b

/-- Check that resolving `r` against `b` yields a URI equal (in the
`URI.__eq__` sense) to the parse of `t`. -/
def resolveEq (b r t : String) : Bool :=
  match resolveStr b.toList r.toList, uriParse t.toList with
  | .ok x, .ok y => uriEq x y
  | _, _ => false

/-- The RFC 3986 §5.4 reference-resolution vectors (normal and abnormal,
as exercised by the repository's `uri_test.py`), paired with their targets. -/
def rfc3986Vectors : List (String × String) :=
  [("g:h", "g:h"), ("g", "http://a/b/c/g"), ("./g", "http://a/b/c/g"),
   ("g/", "http://a/b/c/g/"), ("/g", "http://a/g"), ("//g", "http://g"),
   ("?y", "http://a/b/c/d;p?y"), ("g?y", "http://a/b/c/g?y"),
   ("#s", "http://a/b/c/d;p?q#s"), ("g#s", "http://a/b/c/g#s"),
   ("g?y#s", "http://a/b/c/g?y#s"), (";x", "http://a/b/c/;x"),
   ("g;x", "http://a/b/c/g;x"), ("g;x?y#s", "http://a/b/c/g;x?y#s"),
   ("", "http://a/b/c/d;p?q"), (".", "http://a/b/c/"), ("./", "http://a/b/c/"),
   ("..", "http://a/b/"), ("../", "http://a/b/"), ("../g", "http://a/b/g"),
   ("../..", "http://a/"), ("../../", "http://a/"), ("../../g", "http://a/g"),
   ("../../../g", "http://a/g"), ("../../../../g", "http://a/g"),
   ("/./g", "http://a/g"), ("/../g", "http://a/g"), ("g.", "http://a/b/c/g."),
   (".g", "http://a/b/c/.g"), ("g..", "http://a/b/c/g.."), ("..g", "http://a/b/c/..g"),
   ("./../g", "http://a/b/g"), ("./g/.", "http://a/b/c/g/"),
   ("g/./h", "http://a/b/c/g/h"), ("g/../h", "http://a/b/c/h"),
   ("g;x=1/./y", "http://a/b/c/g;x=1/y"), ("g;x=1/../y", "http://a/b/c/y"),
   ("g?y/./x", "http://a/b/c/g?y/./x"), ("g?y/../x", "http://a/b/c/g?y/../x"),
   ("g#s/./x", "http://a/b/c/g#s/./x"), ("g#s/../x", "http://a/b/c/g#s/../x"),
   ("http:g", "http:g")]

/-- C3: `URI("http://a/b/c/d;p?q").resolve("../../g")` equals
`URI("http://a/g")`, and every RFC 3986 §5.4 reference-resolution vector
resolves (with `strict=True`) to a URI equal, in the `URI.__eq__` sense the
repository's tests use, to the parse of the documented target. -/
theorem C3_resolve_rfc3986_vectors :
    resolveEq "http://a/b/c/d;p?q" "../../g" "http://a/g" = true ∧
      (rfc3986Vectors.all fun v => resolveEq "http://a/b/c/d;p?q" v.1 v.2) = true := by
  exact ⟨by rfl, by rfl⟩

/-- C4 (code bug): the two documented §5.2.4 vectors hold, but
`remove_dot_segments` is NOT idempotent: for `Path(".˺")` the first
application yields decoded text `"./A"` (because `percent_encode` writes
U+02FA as the three-digit escape `%2FA`, which `percent_decode` then reads
back as `/A`), and the second application strips the now-apparent `./`,
yielding `"A"`. -/
theorem C4_remove_dot_segments_not_idempotent :
    (remove_dot_segments (pathMk "/a/b/c/./../../g".toList)).path = some "/a/g".toList ∧
      (remove_dot_segments (pathMk "mid/content=5/../6".toList)).path =
        some "mid/6".toList ∧
      (remove_dot_segments (pathMk ('.' :: [Char.ofNat 0x2FA]))).path =
        some "./A".toList ∧
      (remove_dot_segments (remove_dot_segments (pathMk ('.' :: [Char.ofNat 0x2FA])))).path =
        some "A".toList ∧
      remove_dot_segments (remove_dot_segments (pathMk ('.' :: [Char.ofNat 0x2FA]))) ≠
        remove_dot_segments (pathMk ('.' :: [Char.ofNat 0x2FA])) := by
  refine ⟨rfl, rfl, rfl, rfl, by decide⟩

/-- C5 (code bug): the percent round-trip fails for characters above U+00FF:
`percent_encode` writes U+0100 as the three-digit escape `%100`, which
`percent_decode` reads back as `\x10` followed by `0`.  The last conjunct
records the non-UTF-8 encoding of `"/El Niño/"` that contradicts the
repository's own `test_can_percent_encode_extended_chars`. -/
theorem C5_percent_roundtrip_fails_above_255 :
    percent_encode [Char.ofNat 0x100] [] = "%100".toList ∧
      percent_decode (percent_encode [Char.ofNat 0x100] []) = [Char.ofNat 0x10, '0'] ∧
      percent_decode (percent_encode [Char.ofNat 0x100] []) ≠ [Char.ofNat 0x100] ∧
      percent_encode "/El Niño/".toList [] = "%2FEl%20Ni%F1o%2F".toList := by
  refine ⟨rfl, rfl, by decide, rfl⟩

/-- C6 (code bug): `Query.decode` stores the pairs in an ordered dict keyed
by name, so duplicate keys collapse (first position, last value) instead of
being preserved in order as the claim — and the repository's
`query_test.py` (`get_all("foo") == ["bar", "baz", "qux"]`) — requires. -/
theorem C6_query_decode_collapses_duplicates :
    queryDecode "foo=bar&foo=baz".toList = [("foo".toList, some "baz".toList)] ∧
      (queryDecode "foo=bar&foo=baz".toList).length = 1 := by
  exact ⟨rfl, rfl⟩

/-- C7 counterexample: for `"user:pass@example.com"` the code does not
parse with `port = None` and `host = "example.com"` as the claim states; the
rightmost-colon split makes it call `int("pass@example.com")`, which raises
`ValueError`. -/
theorem C7_colon_in_userinfo_raises :
    authorityParse "user:pass@example.com".toList = .error "ValueError" := by
  rfl

/-- C7 (amended): the rightmost `:` ALWAYS splits host from port (even when
the colon belongs to the user-info, so `"user:pass@example.com"` fails with
`ValueError`), the RIGHTMOST `@` splits user-info from host, both are
percent-decoded on parse, and user-info is re-encoded on output so its `@`
serialises as `%40`; an authority without `:` and `@` parses to a
percent-decoded host with no port. -/
theorem C7_authority_parse_behaviour :
    authorityParse "user:pass@example.com".toList = .error "ValueError" ∧
      authorityParse "bob@example.com:6789".toList =
        .ok ⟨some "bob".toList, some "example.com".toList, some 6789⟩ ∧
      authorityParse "bob@example.com@example.com".toList =
        .ok ⟨some "bob@example.com".toList, some "example.com".toList, Option.none⟩ ∧
      (authorityParse "bob@example.com@example.com".toList).map authorityString =
        .ok (some "bob%40example.com@example.com".toList) ∧
      ∀ s : List Char, s.contains ':' = false → s.contains '@' = false →
        authorityParse s = .ok ⟨Option.none, some (percent_decode s), Option.none⟩ := by
  refine ⟨rfl, rfl, rfl, rfl, ?_⟩
  intro s h1 h2
  have h1b : ¬ (':' ∈ s) := by simpa using h1
  have h2b : ¬ ('@' ∈ s) := by simpa using h2
  simp [authorityParse, h1b, h2b]

/-- Witness for the universally quantified part of the amended C7. -/
theorem C7_authority_parse_behaviour_witness :
    authorityParse "example.com".toList =
      .ok ⟨Option.none, some (percent_decode "example.com".toList), Option.none⟩ :=
  C7_authority_parse_behaviour.2.2.2.2 "example.com".toList (by decide) (by decide)

/-- Parse two URI strings and compare with `URI.__eq__` (false if either
fails to parse). -/
def uriEqStr (a b : String) : Bool :=
  match uriParse a.toList, uriParse b.toList with
  | .ok x, .ok y => uriEq x y
  | _, _ => false

/-! ### URITemplate expansion (`httpstream/uri.py`, `URITemplate._Expander`) -/

/-- A template variable binding value: a string, a list, or a dict. -/
inductive TVal where
  | s (text : List Char) : TVal
  | lst (items : List (List Char)) : TVal
  | dct (pairs : List (List Char × List Char)) : TVal
deriving BEq, DecidableEq, Repr

/-- A collected item value inside `_Expander.collect`: a `(k, v)` tuple
from an exploded dict, a dict, a list, a plain string, or Python `None`. -/
inductive CVal where
  | tup (k v : List Char) : CVal
  | dct (pairs : List (List Char × List Char)) : CVal
  | lst (items : List (List Char)) : CVal
  | str (text : List Char) : CVal
  | noneV : CVal
deriving BEq, DecidableEq, Repr

/-- Python `value[:n]` on a string, including negative indices. -/
def pySliceTo (s : List Char) (n : Int) : List Char :=
  if n < 0 then s.take (s.length - n.natAbs) else s.take n.toNat

/-- Model of one iteration of the loop in `_Expander.collect`, threading the
function-local `max_length` through iterations: `Option.none` models the
local being unbound, `some Option.none` models `max_length = None`, and
`some (some n)` models `max_length = int(N)`.  A spec without `*` always
assigns the local (to the parsed `:N` value, `ValueError` on a non-integer,
or to `None`); the explode (`*`) branch never assigns it, so the incoming
value leaks through.  The local is read only when the looked-up value is a
scalar or `None`: there an unbound local raises `UnboundLocalError`, a
(possibly leaked) `None` appends the value unsliced, and a (possibly
leaked) integer slices — `None[:n]` raising `TypeError`. -/
def collectStep (ml : Option (Option Int)) (spec : List Char)
    (vals : List Char → Option TVal) :
    Except String (Option (Option Int) × List (List Char × CVal)) :=
  if spec.getLast? = some '*' then
    let key := spec.dropLast
    match vals key with
    | some (.dct d) =>
      if d = [] then .ok (ml, [(key, .noneV)])
      else .ok (ml, d.map fun kv => (key, .tup kv.1 kv.2))
    | some (.lst l) => .ok (ml, l.map fun x => (key, .str x))
    | some (.s s) =>
      match ml with
      | Option.none => .error "UnboundLocalError"
      | some Option.none => .ok (ml, [(key, .str s)])
      | some (some n) => .ok (ml, [(key, .str (pySliceTo s n))])
    | Option.none =>
      match ml with
      | Option.none => .error "UnboundLocalError"
      | some Option.none => .ok (ml, [(key, .noneV)])
      | some (some _) => .error "TypeError"
  else if spec.contains ':' then
    let key := (splitFirst spec ':').1
    match pyIntParse (splitFirst spec ':').2 with
    | Option.none => .error "ValueError"
    | some n =>
      match vals key with
      | some (.dct d) =>
        if d = [] then .ok (some (some n), [(key, .noneV)])
        else .ok (some (some n), [(key, .dct d)])
      | some (.lst l) => .ok (some (some n), [(key, .lst l)])
      | some (.s s) => .ok (some (some n), [(key, .str (pySliceTo s n))])
      | Option.none => .error "TypeError"
  else
    match vals spec with
    | some (.dct d) =>
      if d = [] then .ok (some Option.none, [(spec, .noneV)])
      else .ok (some Option.none, [(spec, .dct d)])
    | some (.lst l) => .ok (some Option.none, [(spec, .lst l)])
    | some (.s s) => .ok (some Option.none, [(spec, .str s)])
    | Option.none => .ok (some Option.none, [(spec, .noneV)])

/-- The item accumulation of `_Expander.collect` over all key specs,
starting from a given `max_length` state. -/
def collectAll : Option (Option Int) → List (List Char) → (List Char → Option TVal) →
    Except String (List (List Char × CVal))
  | _, [], _ => .ok []
  | ml, spec :: rest, vals =>
    match collectStep ml spec vals with
    | .error e => .error e
    | .ok (ml2, xs) =>
      match collectAll ml2 rest vals with
      | .error e => .error e
      | .ok ys => .ok (xs ++ ys)

/-- Model of `_Expander.collect`: run the loop with the `max_length` local
initially unbound, then drop the `None`-valued pairs. -/
def collect (specs : List (List Char)) (vals : List Char → Option TVal) :
    Except String (List (List Char × CVal)) :=
  (collectAll Option.none specs vals).map (List.filter fun kv => ¬ kv.2 = CVal.noneV)

/-- The per-item string built inside `_Expander._expand`: tuples become
`k=v`, dicts flatten to `k1,v1,k2,...`, lists join with commas, scalars
encode directly; the named-parameter form prefixes `key=` (or bare `key`
when trimming an empty `=`). -/
def encodeItem (safe : List Char) (withKeys trimEmptyEquals : Bool)
    (kv : List Char × CVal) : List Char :=
  match kv.2 with
  | .tup a b => percent_encode a safe ++ '=' :: percent_encode b safe
  | other =>
    let body :=
      match other with
      | .dct d =>
        List.intercalate [','] (d.map fun i =>
          percent_encode i.1 safe ++ ',' :: percent_encode i.2 safe)
      | .lst l => List.intercalate [','] (l.map fun x => percent_encode x safe)
      | .str s => percent_encode s safe
      | _ => []
    if withKeys then
      if body ≠ [] ∨ ¬ trimEmptyEquals then percent_encode kv.1 safe ++ '=' :: body
      else percent_encode kv.1 safe
    else body

/-- The output loop of `_Expander._expand`: prefix before the first item,
separator before each further item. -/
def joinItems (pfx sep : List Char) : List (List Char) → List Char
  | [] => []
  | s :: rest => pfx ++ s ++ rest.foldl (fun acc x => acc ++ sep ++ x) []

/-- Model of `_Expander._expand` applied to an already-split spec list. -/
def expandSpecs (safe pfx sep : List Char) (withKeys trimEmptyEquals : Bool)
    (specs : List (List Char)) (vals : List Char → Option TVal) :
    Except String (List Char) :=
  match collect specs vals with
  | .error e => .error e
  | .ok items => .ok (joinItems pfx sep (items.map (encodeItem safe withKeys trimEmptyEquals)))

/-- Model of `_Expander.expand`: dispatch on the operator character. -/
def expandExpression (expr : List Char) (vals : List Char → Option TVal) :
    Except String (List Char) :=
  match expr with
  | [] => .ok []
  | c :: rest =>
    if c = '+' then expandSpecs reservedChars [] [','] false false (splitAll rest ',') vals
    else if c = '#' then expandSpecs reservedChars ['#'] [','] false false (splitAll rest ',') vals
    else if c = '.' then expandSpecs [] ['.'] ['.'] false false (splitAll rest ',') vals
    else if c = '/' then expandSpecs [] ['/'] ['/'] false false (splitAll rest ',') vals
    else if c = ';' then expandSpecs [] [';'] [';'] true true (splitAll rest ',') vals
    else if c = '?' then expandSpecs [] ['?'] ['&'] true false (splitAll rest ',') vals
    else if c = '&' then expandSpecs [] ['&'] ['&'] true false (splitAll rest ',') vals
    else expandSpecs [] [] [','] false false (splitAll expr ',') vals

instance : Inhabited CVal := ⟨CVal.noneV⟩

/-- A spec without the explode modifier never reads the `max_length` local:
its step is the same from any state. -/
theorem collectStep_no_star (ml1 ml2 : Option (Option Int)) (spec : List Char)
    (vals : List Char → Option TVal) (h : spec.getLast? ≠ some '*') :
    collectStep ml1 spec vals = collectStep ml2 spec vals := by
  unfold collectStep
  rw [if_neg h, if_neg h]

/-- A run whose head spec carries no explode modifier does not depend on
the incoming `max_length` state (the head reassigns the local before any
later spec can read it). -/
theorem collectAll_no_star (l : List (List Char)) (vals : List Char → Option TVal)
    (h : ∀ s ∈ l, s.getLast? ≠ some '*') (ml1 ml2 : Option (Option Int)) :
    collectAll ml1 l vals = collectAll ml2 l vals := by
  cases l with
  | nil => rfl
  | cons s rest =>
    have hs : s.getLast? ≠ some '*' := h s (List.mem_cons_self s rest)
    simp only [collectAll]
    rw [collectStep_no_star ml1 ml2 s vals hs]

/-- Dropping a spec whose step succeeds from every state with only
`None`-valued items, and whose effect on the state is invisible to the
remaining run, leaves the post-filter item list unchanged. -/
theorem collectAll_drop (spec : List Char) (vals : List Char → Option TVal)
    (xs : List (List Char × CVal)) (s2 : List (List Char))
    (hall : ∀ kv ∈ xs, kv.2 = CVal.noneV)
    (hstep : ∀ ml, ∃ mlo, collectStep ml spec vals = .ok (mlo, xs) ∧
        collectAll mlo s2 vals = collectAll ml s2 vals) :
    ∀ (s1 : List (List Char)) (ml : Option (Option Int)),
      (collectAll ml (s1 ++ spec :: s2) vals).map
          (List.filter fun kv => ¬ kv.2 = CVal.noneV)
        = (collectAll ml (s1 ++ s2) vals).map
            (List.filter fun kv => ¬ kv.2 = CVal.noneV) := by
  have hxs : xs.filter (fun kv => ¬ kv.2 = CVal.noneV) = [] := by
    simp [List.filter_eq_nil_iff]
    intro a b hab
    exact hall (a, b) hab
  intro s1
  induction s1 with
  | nil =>
    intro ml
    obtain ⟨mlo, hst, hrest⟩ := hstep ml
    simp only [List.nil_append, collectAll, hst, hrest]
    rcases hr : collectAll ml s2 vals with e | ys
    · simp
    · simp [Except.map, List.filter_append, hxs]
      intro a b hab
      exact hall (a, b) hab
  | cons a s1 ih =>
    intro ml
    simp only [List.cons_append, collectAll]
    rcases ha : collectStep ml a vals with e | p
    · simp
    · obtain ⟨ml2, as⟩ := p
      dsimp only
      have ih2 := ih ml2
      rcases hA : collectAll ml2 (s1 ++ spec :: s2) vals with eA | tA <;>
        rcases hB : collectAll ml2 (s1 ++ s2) vals with eB | tB <;>
          rw [hA, hB] at ih2 <;> simp [Except.map] at ih2 ⊢
      · exact ih2
      · simp [List.filter_append, ih2]

/-- Specialisation of the drop lemma to `collect` (state initially
unbound). -/
theorem collect_drop (spec : List Char) (vals : List Char → Option TVal)
    (xs : List (List Char × CVal)) (s2 : List (List Char))
    (hall : ∀ kv ∈ xs, kv.2 = CVal.noneV)
    (hstep : ∀ ml, ∃ mlo, collectStep ml spec vals = .ok (mlo, xs) ∧
        collectAll mlo s2 vals = collectAll ml s2 vals) :
    ∀ s1 : List (List Char),
      collect (s1 ++ spec :: s2) vals = collect (s1 ++ s2) vals := by
  intro s1
  unfold collect
  exact collectAll_drop spec vals xs s2 hall hstep s1 Option.none

/-- C9 (amended): a variable bound to `None` or absent contributes nothing
to the expansion — name, separator and all — when its spec carries no
modifier AND no later spec of the same expression is exploded: the dropped
spec assigns `max_length = None`, and that assignment leaks into a later
exploded spec holding a scalar or absent value (see the counterexample
theorem, where dropping the variable turns a successful expansion into
`UnboundLocalError`).  An empty dict is likewise dropped under the same
proviso, and exploded empty dicts and empty lists are dropped
unconditionally, because the explode branch passes the local through
untouched.  The modifiers refute the rest of the claim: an absent variable
with `:N` raises `TypeError` from every state, and an exploded absent
variable raises `UnboundLocalError` while the `max_length` local is still
unbound — in particular as the first spec of an expression. -/
theorem C9_variable_drop_behaviour :
    (∀ (vals : List Char → Option TVal) (safe pfx sep : List Char) (wk te : Bool)
        (s1 s2 : List (List Char)) (name : List Char),
        vals name = Option.none → name.contains ':' = false →
        name.getLast? ≠ some '*' →
        (∀ s ∈ s2, s.getLast? ≠ some '*') →
        expandSpecs safe pfx sep wk te (s1 ++ name :: s2) vals =
          expandSpecs safe pfx sep wk te (s1 ++ s2) vals) ∧
      (∀ (vals : List Char → Option TVal) (safe pfx sep : List Char) (wk te : Bool)
          (s1 s2 : List (List Char)) (name : List Char),
          vals name = some (.dct []) → name.contains ':' = false →
          name.getLast? ≠ some '*' →
          (∀ s ∈ s2, s.getLast? ≠ some '*') →
          expandSpecs safe pfx sep wk te (s1 ++ name :: s2) vals =
            expandSpecs safe pfx sep wk te (s1 ++ s2) vals) ∧
      (∀ (vals : List Char → Option TVal) (safe pfx sep : List Char) (wk te : Bool)
          (s1 s2 : List (List Char)) (name : List Char),
          vals name = some (.dct []) →
          expandSpecs safe pfx sep wk te (s1 ++ (name ++ ['*']) :: s2) vals =
            expandSpecs safe pfx sep wk te (s1 ++ s2) vals) ∧
      (∀ (vals : List Char → Option TVal) (safe pfx sep : List Char) (wk te : Bool)
          (s1 s2 : List (List Char)) (name : List Char),
          vals name = some (.lst []) →
          expandSpecs safe pfx sep wk te (s1 ++ (name ++ ['*']) :: s2) vals =
            expandSpecs safe pfx sep wk te (s1 ++ s2) vals) ∧
      (∀ ml, collectStep ml "x:3".toList (fun _ => Option.none) = .error "TypeError") ∧
      collectStep Option.none "x*".toList (fun _ => Option.none) =
        .error "UnboundLocalError" := by
  refine ⟨?_, ?_, ?_, ?_, ?_, rfl⟩
  · intro vals safe pfx sep wk te s1 s2 name hnone hcolon hstar hs2
    have hone : ∀ ml, collectStep ml name vals
        = .ok (some Option.none, [(name, CVal.noneV)]) := by
      intro ml
      have hc : ¬ (':' ∈ name) := by simpa using hcolon
      simp [collectStep, hstar, hc, hnone]
    have hd := collect_drop name vals [(name, CVal.noneV)] s2 (by simp)
      (fun ml => ⟨some Option.none, hone ml,
        collectAll_no_star s2 vals hs2 (some Option.none) ml⟩) s1
    simp only [expandSpecs, hd]
  · intro vals safe pfx sep wk te s1 s2 name hdct hcolon hstar hs2
    have hone : ∀ ml, collectStep ml name vals
        = .ok (some Option.none, [(name, CVal.noneV)]) := by
      intro ml
      have hc : ¬ (':' ∈ name) := by simpa using hcolon
      simp [collectStep, hstar, hc, hdct]
    have hd := collect_drop name vals [(name, CVal.noneV)] s2 (by simp)
      (fun ml => ⟨some Option.none, hone ml,
        collectAll_no_star s2 vals hs2 (some Option.none) ml⟩) s1
    simp only [expandSpecs, hd]
  · intro vals safe pfx sep wk te s1 s2 name hdct
    have hone : ∀ ml, collectStep ml (name ++ ['*']) vals
        = .ok (ml, [(name, CVal.noneV)]) := by
      intro ml
      simp [collectStep, List.getLast?_concat, List.dropLast_concat, hdct]
    have hd := collect_drop (name ++ ['*']) vals [(name, CVal.noneV)] s2 (by simp)
      (fun ml => ⟨ml, hone ml, rfl⟩) s1
    simp only [expandSpecs, hd]
  · intro vals safe pfx sep wk te s1 s2 name hlst
    have hone : ∀ ml, collectStep ml (name ++ ['*']) vals = .ok (ml, []) := by
      intro ml
      simp [collectStep, List.getLast?_concat, List.dropLast_concat, hlst]
    have hd := collect_drop (name ++ ['*']) vals [] s2 (by simp)
      (fun ml => ⟨ml, hone ml, rfl⟩) s1
    simp only [expandSpecs, hd]
  · intro ml
    rfl

/-- Witness for the absent-variable part of C9: with `x` unbound and `y`
bound to a string, expansion over specs `[x, y]` equals the expansion over
`[y]` alone (and `y`, being unexploded, cannot observe the leaked local). -/
theorem C9_variable_drop_behaviour_witness :
    expandSpecs [] ['?'] ['&'] true false ("x".toList :: ["y".toList])
        (fun k => if k = "y".toList then some (.s "z".toList) else Option.none) =
      expandSpecs [] ['?'] ['&'] true false ["y".toList]
        (fun k => if k = "y".toList then some (.s "z".toList) else Option.none) :=
  C9_variable_drop_behaviour.1
    (fun k => if k = "y".toList then some (.s "z".toList) else Option.none)
    [] ['?'] ['&'] true false [] ["y".toList] "x".toList
    (by decide) (by decide) (by decide) (by decide)

/-- C9 counterexamples.  First, a variable bound to an EMPTY LIST without
the explode modifier is not dropped: `"\x7b?x\x7d"` with `x = []` expands
to `"?x="` rather than the empty expansion the claim requires.  Second,
dropping an absent variable is not sound in general, because its
`max_length = None` assignment leaks into a later exploded spec:
`"\x7bx,b*\x7d"` with `x` absent and `b = "hi"` expands successfully to
`"hi"`, while `"\x7bb*\x7d"` alone raises `UnboundLocalError`. -/
theorem C9_drop_failures :
    (expandExpression "?x".toList
        (fun k => if k = "x".toList then some (.lst []) else Option.none) =
      .ok "?x=".toList ∧ "?x=".toList ≠ ([] : List Char)) ∧
    expandExpression "x,b*".toList
        (fun k => if k = "b".toList then some (.s "hi".toList) else Option.none) =
      .ok "hi".toList ∧
    expandExpression "b*".toList
        (fun k => if k = "b".toList then some (.s "hi".toList) else Option.none) =
      .error "UnboundLocalError" :=
  ⟨⟨rfl, by decide⟩, rfl, rfl⟩

/-! ### C10: percent-encoding invariance of URI equality -/

/-- Hex digits of zero: the auxiliary loop emits nothing. -/
theorem natToHexAux_zero (fuel : Nat) : natToHexAux fuel 0 = [] := by
  cases fuel <;> simp [natToHexAux]

/-- With any fuel, a nonzero value below 16 yields a single hex digit. -/
theorem natToHexAux_small (fuel n : Nat) (h1 : 1 ≤ fuel) (h2 : n < 16) (h3 : n ≠ 0) :
    natToHexAux fuel n = [hexUpperDigit n] := by
  cases fuel with
  | zero => omega
  | succ f =>
    simp only [natToHexAux, h3, if_false]
    rw [Nat.div_eq_of_lt h2, natToHexAux_zero, Nat.mod_eq_of_lt h2]
    simp

/-- For a code point below 256 the `zfill(2)`-padded hex string is exactly
two digits. -/
theorem zfill2_natToHexUpper (n : Nat) (h : n < 256) :
    zfill2 (natToHexUpper n) = [hexUpperDigit (n / 16), hexUpperDigit (n % 16)] := by
  by_cases h0 : n = 0
  · subst h0; decide
  · by_cases h16 : n < 16
    · have : natToHexUpper n = [hexUpperDigit n] := by
        unfold natToHexUpper
        rw [if_neg h0]
        exact natToHexAux_small (n + 1) n (by omega) h16 h0
      rw [this]
      have hdiv : n / 16 = 0 := Nat.div_eq_of_lt h16
      have hmod : n % 16 = n := Nat.mod_eq_of_lt h16
      rw [hdiv, hmod]
      simp [zfill2, hexUpperDigit]
    · have hd1 : 1 ≤ n / 16 := by omega
      have hd2 : n / 16 < 16 := by omega
      have : natToHexUpper n = [hexUpperDigit (n / 16), hexUpperDigit (n % 16)] := by
        unfold natToHexUpper
        rw [if_neg h0]
        show natToHexAux (n + 1) n = _
        have hne : n ≠ 0 := h0
        simp only [natToHexAux, hne, if_false]
        rw [natToHexAux_small n (n / 16) (by omega) hd2 (by omega)]
        simp
      rw [this]
      simp [zfill2]

/-- Decoding an uppercase hex digit recovers its value. -/
theorem hexDigitVal_hexUpperDigit (k : Nat) (h : k < 16) :
    hexDigitVal (hexUpperDigit k) = some k := by
  interval_cases k <;> decide

/-- A character other than the percent sign passes through the decoder. -/
theorem percent_decode_cons (c : Char) (hc : c ≠ '%') (l : List Char) :
    percent_decode (c :: l) = c :: percent_decode l := by
  conv_lhs => rw [percent_decode.eq_def]
  split
  · rename_i v1 v2 rest heq
    injection heq with h1 _
    exact absurd h1 hc
  · rename_i c2 rest heq
    injection heq with h1 h2
    subst h1
    subst h2
    rfl
  · rename_i heq
    exact absurd heq (by simp)

/-- Decoding skips over a percent-free prefix unchanged. -/
theorem percent_decode_clean_append (p : List Char) (hp : '%' ∉ p) (t : List Char) :
    percent_decode (p ++ t) = p ++ percent_decode t := by
  induction p with
  | nil => rfl
  | cons c rest ih =>
    have hc : c ≠ '%' := fun h => hp (h ▸ List.mem_cons_self c rest)
    have hrest : '%' ∉ rest := fun h => hp (List.mem_cons_of_mem c h)
    rw [List.cons_append, percent_decode_cons c hc, ih hrest]
    rfl

/-- Decoding the escape the encoder writes for a character below U+0100
recovers that character. -/
theorem percent_decode_pct (c : Char) (h256 : c.toNat < 256) (t : List Char) :
    percent_decode (pctEncodeChar c ++ t) = c :: percent_decode t := by
  unfold pctEncodeChar
  rw [zfill2_natToHexUpper c.toNat h256]
  simp only [List.cons_append, List.nil_append]
  rw [percent_decode.eq_def]
  simp only [hexDigitVal_hexUpperDigit (c.toNat / 16) (by omega),
    hexDigitVal_hexUpperDigit (c.toNat % 16) (by omega)]
  have : 16 * (c.toNat / 16) + c.toNat % 16 = c.toNat := by omega
  rw [this, Char.ofNat_toNat]


/-- Membership gives `contains = true`. -/
theorem contains_true_of_mem (l : List Char) (c : Char) (h : c ∈ l) :
    l.contains c = true := by
  simpa using h

/-- Non-membership gives `contains = false`. -/
theorem contains_false_of_not_mem (l : List Char) (c : Char) (h : c ∉ l) :
    l.contains c = false := by
  simpa using h

/-- Taking up to a delimiter absent from the prefix returns the prefix. -/
theorem takeWhile_ne_append (d : Char) (a X : List Char) (ha : d ∉ a) :
    (a ++ d :: X).takeWhile (· ≠ d) = a := by
  induction a with
  | nil => simp
  | cons c rest ih =>
    simp only [List.mem_cons, not_or] at ha
    obtain ⟨hdc, hrest⟩ := ha
    have hc : c ≠ d := fun h => hdc h.symm
    rw [List.cons_append, List.takeWhile_cons]
    simp [hc]
    simpa using ih hrest

/-- Dropping up to a delimiter absent from the prefix leaves the delimiter
and the suffix. -/
theorem dropWhile_ne_append (d : Char) (a X : List Char) (ha : d ∉ a) :
    (a ++ d :: X).dropWhile (· ≠ d) = d :: X := by
  induction a with
  | nil => simp
  | cons c rest ih =>
    simp only [List.mem_cons, not_or] at ha
    obtain ⟨hdc, hrest⟩ := ha
    have hc : c ≠ d := fun h => hdc h.symm
    rw [List.cons_append, List.dropWhile_cons]
    simp [hc]
    simpa using ih hrest

/-- An authority string without a colon always parses (no port). -/
theorem authorityParse_ok (a : List Char) (ha : ':' ∉ a) :
    authorityParse a =
      .ok (if a.contains '@' then
             ⟨some (percent_decode (splitLast a '@').1),
              some (percent_decode (splitLast a '@').2), Option.none⟩
           else ⟨Option.none, some (percent_decode a), Option.none⟩) := by
  unfold authorityParse
  rw [contains_false_of_not_mem a ':' ha]
  by_cases h : '@' ∈ a
  · simp [h]
  · simp [h]

/-- Parsing `http://` followed by a delimiter-free authority, a slash and a
path remainder free of `#` and `?`: the scheme is `http`, the remainder
becomes the path, and there is no query or fragment. -/
theorem uriParse_http (a rest : List Char)
    (ha1 : '/' ∉ a) (ha3 : '#' ∉ a) (ha4 : '?' ∉ a)
    (hr1 : '#' ∉ rest) (hr2 : '?' ∉ rest) :
    uriParse ("http://".toList ++ a ++ '/' :: rest) =
      (authorityParse a).map (fun auth =>
        ⟨some "http".toList, some auth, some (pathMk ('/' :: rest)),
         Option.none, Option.none⟩) := by
  have hassoc : "http://".toList ++ a ++ '/' :: rest
      = 'h' :: 't' :: 't' :: 'p' :: ':' :: '/' :: '/' :: (a ++ '/' :: rest) := by
    rw [List.append_assoc]
    rfl
  have c1 : ('h' :: 't' :: 't' :: 'p' :: ':' :: '/' :: '/' :: (a ++ '/' :: rest)).contains ':' = true :=
    contains_true_of_mem _ _ (by simp)
  have sf1 : splitFirst ('h' :: 't' :: 't' :: 'p' :: ':' :: '/' :: '/' :: (a ++ '/' :: rest)) ':'
      = ("http".toList, '/' :: '/' :: (a ++ '/' :: rest)) := rfl
  have c2 : ('/' :: '/' :: (a ++ '/' :: rest)).contains '#' = false :=
    contains_false_of_not_mem _ _ (by simp [ha3, hr1])
  have c3 : ('/' :: '/' :: (a ++ '/' :: rest)).contains '?' = false :=
    contains_false_of_not_mem _ _ (by simp [ha4, hr2])
  have c4 : (a ++ '/' :: rest).contains '/' = true :=
    contains_true_of_mem _ _ (by simp)
  have tw : (a ++ '/' :: rest).takeWhile (· ≠ '/') = a := takeWhile_ne_append '/' a rest ha1
  have dw : (a ++ '/' :: rest).dropWhile (· ≠ '/') = '/' :: rest := dropWhile_ne_append '/' a rest ha1
  rw [hassoc]
  unfold uriParse
  simp only [c1, sf1, c2, c3, c4, tw, dw, if_true, if_false, Bool.false_eq_true,
    List.take, List.drop]
  cases h : authorityParse a with
  | ok auth =>
    simp [h, Except.map]
    decide
  | error e => simp [h, Except.map]

/-- Reflexivity of the componentwise `URI.__eq__` comparison. -/
theorem uriEq_refl (u : URIRec) : uriEq u u = true := by
  simp [uriEq]

/-- Every unreserved character is none of `#`, `?`, `%` and lies below
U+0100. -/
theorem unres_facts : ∀ x ∈ unreservedChars,
    x ≠ '#' ∧ x ≠ '?' ∧ x ≠ '%' ∧ x.toNat < 256 := by decide

/-- Uppercase hex digits are never `#` or `?`. -/
theorem hexDigit_facts : ∀ k < 16, hexUpperDigit k ≠ '#' ∧ hexUpperDigit k ≠ '?' := by
  decide

/-- C10 (amended): URI equality is invariant under percent-encoding of an
UNRESERVED character in the path.  For an `http` URI whose authority part
contains no delimiter, whose path prefix holds no `%`, `#` or `?` and whose
path suffix holds no `#` or `?`, writing an unreserved character `c`
literally or as the escape `pctEncodeChar c` yields URIs that both parse
and compare equal under `URI.__eq__`.  (The original claim, quantified over
every character, is refuted by `C10_reserved_literal_differs`: escaping a
RESERVED character such as `?` changes how the string splits into
components, so the two URIs differ.) -/
theorem C10_percent_encoding_invariance (a p t : List Char) (c : Char)
    (hc : c ∈ unreservedChars)
    (ha : '/' ∉ a ∧ ':' ∉ a ∧ '#' ∉ a ∧ '?' ∉ a)
    (hp : '%' ∉ p ∧ '#' ∉ p ∧ '?' ∉ p)
    (ht : '#' ∉ t ∧ '?' ∉ t) :
    ∃ u1 u2,
      uriParse ("http://".toList ++ a ++ '/' :: (p ++ c :: t)) = .ok u1 ∧
      uriParse ("http://".toList ++ a ++ '/' :: (p ++ pctEncodeChar c ++ t)) = .ok u2 ∧
      uriEq u1 u2 = true := by
  obtain ⟨ha1, ha2, ha3, ha4⟩ := ha
  obtain ⟨hp1, hp2, hp3⟩ := hp
  obtain ⟨ht1, ht2⟩ := ht
  obtain ⟨hc1, hc2, hc3, hc4⟩ := unres_facts c hc
  have hpct : pctEncodeChar c
      = ['%', hexUpperDigit (c.toNat / 16), hexUpperDigit (c.toNat % 16)] := by
    unfold pctEncodeChar
    rw [zfill2_natToHexUpper c.toNat hc4]
  have hd1 := hexDigit_facts (c.toNat / 16) (by omega)
  have hd2 := hexDigit_facts (c.toNat % 16) (by omega)
  have hr11 : '#' ∉ p ++ c :: t := by
    simp only [List.mem_append, List.mem_cons, not_or]
    exact ⟨hp2, fun h => hc1 h.symm, ht1⟩
  have hr12 : '?' ∉ p ++ c :: t := by
    simp only [List.mem_append, List.mem_cons, not_or]
    exact ⟨hp3, fun h => hc2 h.symm, ht2⟩
  have hr21 : '#' ∉ p ++ pctEncodeChar c ++ t := by
    rw [hpct]
    intro hmem
    simp only [List.mem_append, List.mem_cons, List.not_mem_nil, or_false] at hmem
    rcases hmem with (h | h | h | h) | h
    exacts [hp2 h, absurd h (by decide), hd1.1 h.symm, hd2.1 h.symm, ht1 h]
  have hr22 : '?' ∉ p ++ pctEncodeChar c ++ t := by
    rw [hpct]
    intro hmem
    simp only [List.mem_append, List.mem_cons, List.not_mem_nil, or_false] at hmem
    rcases hmem with (h | h | h | h) | h
    exacts [hp3 h, absurd h (by decide), hd1.2 h.symm, hd2.2 h.symm, ht2 h]
  rw [uriParse_http a (p ++ c :: t) ha1 ha3 ha4 hr11 hr12,
      uriParse_http a (p ++ pctEncodeChar c ++ t) ha1 ha3 ha4 hr21 hr22,
      authorityParse_ok a ha2]
  simp only [Except.map]
  refine ⟨_, _, rfl, rfl, ?_⟩
  have hdec : percent_decode ('/' :: (p ++ c :: t))
      = percent_decode ('/' :: (p ++ pctEncodeChar c ++ t)) := by
    have hnp : '%' ∉ '/' :: p := by
      simp only [List.mem_cons, not_or]
      exact ⟨by decide, hp1⟩
    have e1 : '/' :: (p ++ c :: t) = ('/' :: p) ++ (c :: t) := rfl
    have e2 : '/' :: (p ++ pctEncodeChar c ++ t)
        = ('/' :: p) ++ (pctEncodeChar c ++ t) := by
      rw [List.append_assoc]
      rfl
    rw [e1, e2, percent_decode_clean_append ('/' :: p) hnp,
        percent_decode_clean_append ('/' :: p) hnp,
        percent_decode_cons c hc3 t, percent_decode_pct c hc4 t]
  have hpath : pathMk ('/' :: (p ++ c :: t))
      = pathMk ('/' :: (p ++ pctEncodeChar c ++ t)) := by
    unfold pathMk
    rw [hdec]
  rw [hpath]
  exact uriEq_refl _


/-- C10 witness: the tilde in `http://example.com/~user` may be written as
`%7E` without changing the URI. -/
theorem C10_percent_encoding_invariance_witness :
    '~' ∈ unreservedChars ∧
    (∃ u1 u2,
      uriParse ("http://".toList ++ "example.com".toList
        ++ '/' :: ([] ++ '~' :: "user".toList)) = .ok u1 ∧
      uriParse ("http://".toList ++ "example.com".toList
        ++ '/' :: ([] ++ pctEncodeChar '~' ++ "user".toList)) = .ok u2 ∧
      uriEq u1 u2 = true) :=
  ⟨by decide, C10_percent_encoding_invariance "example.com".toList [] "user".toList '~'
    (by decide)
    ⟨by decide, by decide, by decide, by decide⟩
    ⟨by decide, by decide, by decide⟩
    ⟨by decide, by decide⟩⟩

/-- C10 counterexample: both `http://example.com/a?` and
`http://example.com/a%3F` parse, but the resulting URIs are NOT equal — the
literal `?` starts an (empty) query while `%3F` decodes into the path — so
equality is not invariant under percent-encoding of arbitrary characters. -/
theorem C10_reserved_literal_differs :
    (∃ u, uriParse "http://example.com/a?".toList = .ok u) ∧
    (∃ v, uriParse "http://example.com/a%3F".toList = .ok v) ∧
    uriEqStr "http://example.com/a?" "http://example.com/a%3F" = false :=
  ⟨⟨_, rfl⟩, ⟨_, rfl⟩, by decide⟩
